import Mathlib

/-!
Verification of the defensive response-parsing and voice-session layer of the
Byte application (source: the Gemini service module).

The parser `parseModelJSON` from the source is embedded over `List Char`
(JavaScript strings are modelled as lists of characters).  The JavaScript
built-ins it calls (`String.prototype.replace` with a constant pattern,
`trim`, `indexOf`, `lastIndexOf`, `substring`, `JSON.parse`) are modelled by
the corresponding functions below.  `JSON.parse` / `JSON.stringify` are
modelled on the JSON grammar with numbers restricted to integers (the spec's
claims are about structure recovery, not numeric literals); an exception
inside `JSON.parse` is modelled as `none`.
-/

namespace ByteAI

/-- The backtick character, used by the markdown fence markers. -/
def btick : Char := Char.ofNat 96

/-- The fence pattern stripped first by the source: the seven characters of
a language-tagged opening fence. -/
def fenceJson : List Char := [btick, btick, btick, 'j', 's', 'o', 'n']

/-- The bare three-character fence pattern stripped second. -/
def fence : List Char := [btick, btick, btick]

/-- Boolean list-prefix test (model of a constant-pattern match attempt at the
head of the remaining text). -/
def isPrefixList : List Char → List Char → Bool
  | [], _ => true
  | _ :: _, [] => false
  | a :: as, b :: bs => a = b && isPrefixList as bs

/-- Does `pat` occur as a contiguous substring of `s`?  (Scan of every
suffix.) -/
def containsSub (s pat : List Char) : Bool :=
  match s with
  | [] => isPrefixList pat []
  | _ :: t => isPrefixList pat s || containsSub t pat

/-- One fuel-indexed pass of the global constant-pattern deletion performed by
`text.replace(/pat/g, '')`: on a match the scan resumes after the matched
occurrence, otherwise it advances one character.  `fuel` is instantiated with
the length of the text, which always suffices because every step consumes at
least one character. -/
def replaceAllF (pat : List Char) : Nat → List Char → List Char
  | _, [] => []
  | 0, s => s
  | f + 1, c :: rest =>
    if isPrefixList pat (c :: rest) then
      replaceAllF pat f (List.drop (pat.length - 1) rest)
    else
      c :: replaceAllF pat f rest

/-- Model of `text.replace(/pat/g, '')` for a nonempty constant pattern. -/
def replaceAll (pat s : List Char) : List Char := replaceAllF pat s.length s

/-- Whitespace stripped by `String.prototype.trim` (the ASCII part of the
WhiteSpace/LineTerminator productions). -/
def isTrimWs (c : Char) : Bool :=
  c = ' ' || c = '\t' || c = '\n' || c = '\r' || c = Char.ofNat 11 || c = Char.ofNat 12

/-- Model of `String.prototype.trim`. -/
def trimChars (s : List Char) : List Char :=
  ((s.dropWhile isTrimWs).reverse.dropWhile isTrimWs).reverse

/-- Model of `String.prototype.indexOf` for a single character. -/
def indexOfChar (s : List Char) (c : Char) : Option Nat :=
  match s with
  | [] => none
  | x :: t => if x = c then some 0 else (indexOfChar t c).map (· + 1)

/-- Model of `String.prototype.lastIndexOf` for a single character. -/
def lastIndexOfChar (s : List Char) (c : Char) : Option Nat :=
  (indexOfChar s.reverse c).map (fun j => s.length - 1 - j)

/-- The brace-balancing loop of the source (lines 87-98): `balance` increments
on each opening brace and decrements on each closing brace; the first time it
returns to zero at a closing brace, that index is the end of the balanced
object.  Characters inside string literals are counted too, exactly as in the
source. -/
def balanceGo (i : Nat) (balance : Int) : List Char → Option Nat
  | [] => none
  | c :: t =>
    if c = '{' then balanceGo (i + 1) (balance + 1) t
    else if c = '}' then
      if balance - 1 = 0 then some i else balanceGo (i + 1) (balance - 1) t
    else balanceGo (i + 1) balance t

/-- End index of the first prefix whose brace count returns to zero
(`end` in the source; `none` models `end === -1`). -/
def findBalanceEnd (s : List Char) : Option Nat := balanceGo 0 0 s

/-- Normalisation pipeline of stages 1 of the parser: strip the language-tagged
fence pattern, then the bare fence pattern, then trim surrounding
whitespace. -/
def cleanText (text : List Char) : List Char :=
  trimChars (replaceAll fence (replaceAll fenceJson text))

/-! ### The JSON value model -/

/-- A decoded JSON value (the untyped result of `JSON.parse`).  Strings are
kept as character lists; numbers are modelled as integers. -/
inductive Json where
  | null : Json
  | bool (b : Bool) : Json
  | num (n : Int) : Json
  | str (s : List Char) : Json
  | arr (elems : List Json) : Json
  | obj (members : List (List Char × Json)) : Json

/-- Is the top-level value a JSON object (a mapping)? -/
def Json.isObj : Json → Bool
  | .obj _ => true
  | _ => false

/-! ### Model of `JSON.parse` -/

/-- JSON insignificant whitespace (RFC 8259 / ECMA-404). -/
def isJsonWs (c : Char) : Bool :=
  c = ' ' || c = '\t' || c = '\n' || c = '\r'

/-- Skip insignificant whitespace. -/
def skipWs (s : List Char) : List Char := s.dropWhile isJsonWs

/-- Hex digit test for `\uXXXX` escapes. -/
def isHexDigitCh (c : Char) : Bool :=
  c.isDigit || ('a' ≤ c && c ≤ 'f') || ('A' ≤ c && c ≤ 'F')

/-- Value of a hex digit (garbage on non-hex input, guarded by
`isHexDigitCh`). -/
def hexVal (c : Char) : Nat :=
  if c.isDigit then c.toNat - 48
  else if 'a' ≤ c && c ≤ 'f' then c.toNat - 87
  else c.toNat - 55

/-- Single-character escapes accepted after a backslash in a JSON string. -/
def unescapeChar (c : Char) : Option Char :=
  if c = '"' then some '"'
  else if c = '\\' then some '\\'
  else if c = '/' then some '/'
  else if c = 'b' then some (Char.ofNat 8)
  else if c = 'f' then some (Char.ofNat 12)
  else if c = 'n' then some '\n'
  else if c = 'r' then some '\r'
  else if c = 't' then some '\t'
  else none

/-- Parse the body of a JSON string literal, after the opening quote: returns
the decoded characters and the input after the closing quote.  Raw control
characters are rejected, escapes are decoded (a `\uXXXX` escape requires four
hex digits). -/
def parseStringRest : List Char → Option (List Char × List Char)
  | [] => none
  | c :: r =>
    if c = '"' then some ([], r)
    else if c = '\\' then
      match r with
      | 'u' :: a :: b :: cc :: d :: r2 =>
        if isHexDigitCh a && isHexDigitCh b && isHexDigitCh cc && isHexDigitCh d then
          (parseStringRest r2).map
            (fun p => (Char.ofNat (((hexVal a * 16 + hexVal b) * 16 + hexVal cc) * 16 + hexVal d) :: p.1, p.2))
        else none
      | e :: r2 =>
        match unescapeChar e with
        | some ch => (parseStringRest r2).map (fun p => (ch :: p.1, p.2))
        | none => none
      | [] => none
    else if 32 ≤ c.toNat then
      (parseStringRest r).map (fun p => (c :: p.1, p.2))
    else none

/-- Numeric value of a decimal digit character. -/
def digitVal (c : Char) : Nat := c.toNat - 48

/-- Decimal value of a digit string (most significant first). -/
def digitsToNat (ds : List Char) : Nat :=
  ds.foldl (fun a c => a * 10 + digitVal c) 0

/-- The JSON leading-zero restriction: a multi-digit integer part must not
start with `0`. -/
def leadingZeroBad : List Char → Bool
  | x :: _ :: _ => x = '0'
  | _ => false

/-- Parse an unsigned JSON integer at the head of the input. -/
def parseNumberCore (s : List Char) : Option (Int × List Char) :=
  let ds := s.takeWhile Char.isDigit
  if ds.isEmpty then none
  else if leadingZeroBad ds then none
  else some ((digitsToNat ds : Int), s.dropWhile Char.isDigit)

/-- Parse a (possibly negated) JSON integer at the head of the input. -/
def parseNumber (s : List Char) : Option (Int × List Char) :=
  if s.head? = some '-' then
    (parseNumberCore s.tail).map (fun p => (-p.1, p.2))
  else parseNumberCore s

/-- Array body of the JSON grammar, after the opening bracket: empty array,
or first element followed by either the closing bracket or a comma and the
rest of the array (re-parsed, via `pv`, as an array again — a comma must be
followed by an element, so no trailing commas). -/
def parseArrBody (pv : List Char → Option (Json × List Char)) (r : List Char) :
    Option (Json × List Char) :=
  let r1 := skipWs r
  if r1.head? = some ']' then some (.arr [], r1.tail)
  else
    match pv r1 with
    | none => none
    | some (x, r2) =>
      let r3 := skipWs r2
      if r3.head? = some ',' then
        if (skipWs r3.tail).head? = some ']' then none
        else
          match pv ('[' :: r3.tail) with
          | some (.arr xs, r4) => some (.arr (x :: xs), r4)
          | _ => none
      else if r3.head? = some ']' then some (.arr [x], r3.tail)
      else none

/-- Object body of the JSON grammar, after the opening brace: empty object,
or a first `"key": value` member followed by either the closing brace or a
comma and the rest of the object (re-parsed, via `pv`, as an object again —
the comma must be followed by a quote, so no trailing commas). -/
def parseObjBody (pv : List Char → Option (Json × List Char)) (r : List Char) :
    Option (Json × List Char) :=
  let r1 := skipWs r
  if r1.head? = some '}' then some (.obj [], r1.tail)
  else if r1.head? = some '"' then
    match parseStringRest r1.tail with
    | none => none
    | some (k, r2) =>
      let r3 := skipWs r2
      if r3.head? = some ':' then
        match pv r3.tail with
        | none => none
        | some (x, r4) =>
          let r5 := skipWs r4
          if r5.head? = some ',' then
            if (skipWs r5.tail).head? = some '"' then
              match pv ('{' :: r5.tail) with
              | some (.obj kvs, r6) => some (.obj ((k, x) :: kvs), r6)
              | _ => none
            else none
          else if r5.head? = some '}' then some (.obj [(k, x)], r5.tail)
          else none
      else none
  else none

/-- One step of the JSON value grammar, with `pv` standing for the recursive
occurrence (tied by `parseV` below through a fuel counter).  The input is
assumed whitespace-skipped. -/
def parseVCore (pv : List Char → Option (Json × List Char)) (s : List Char) :
    Option (Json × List Char) :=
  match s with
  | [] => none
  | c :: r =>
    if c = 'n' then
      match r with
      | 'u' :: 'l' :: 'l' :: rr => some (.null, rr)
      | _ => none
    else if c = 't' then
      match r with
      | 'r' :: 'u' :: 'e' :: rr => some (.bool true, rr)
      | _ => none
    else if c = 'f' then
      match r with
      | 'a' :: 'l' :: 's' :: 'e' :: rr => some (.bool false, rr)
      | _ => none
    else if c = '"' then
      (parseStringRest r).map (fun p => (.str p.1, p.2))
    else if c = '[' then
      parseArrBody pv r
    else if c = '{' then
      parseObjBody pv r
    else
      (parseNumber (c :: r)).map (fun p => (.num p.1, p.2))

/-- Fuel-indexed JSON value grammar: each recursive step skips whitespace then
dispatches on the head character. -/
def parseV : Nat → List Char → Option (Json × List Char)
  | 0, _ => none
  | fuel + 1, s => parseVCore (parseV fuel) (skipWs s)

/-- Model of `JSON.parse`: parse one value and require that only whitespace
remains; an exception is modelled as `none`.  The fuel `s.length + 1`
suffices because every recursive step consumes at least one character. -/
def jsonParse (s : List Char) : Option Json :=
  match parseV (s.length + 1) s with
  | some (v, rest) => if skipWs rest = [] then some v else none
  | none => none

/-! ### The source's tolerant parser, `parseModelJSON` -/

/-- Instrumented embedding of `parseModelJSON` (source lines 70-119): the
result together with the number of `JSON.parse` attempts made.  Stage numbers
follow the spec: stage 3 is the fast path, stage 4 the brace-balancing
recovery, stage 5 the last-resort truncation at the last closing brace. -/
def parseModelJSONT (text : List Char) : Option Json × Nat :=
  if text = [] then (none, 0)
  else
    match indexOfChar (cleanText text) '{' with
    | none => (none, 0)
    | some start =>
      match jsonParse ((cleanText text).drop start) with
      | some v => (some v, 1)
      | none =>
        match findBalanceEnd ((cleanText text).drop start) with
        | some e =>
          match jsonParse (((cleanText text).drop start).take (e + 1)) with
          | some v => (some v, 2)
          | none =>
            match lastIndexOfChar ((cleanText text).drop start) '}' with
            | some lb =>
              match jsonParse (((cleanText text).drop start).take (lb + 1)) with
              | some v => (some v, 3)
              | none => (none, 3)
            | none => (none, 2)
        | none => (none, 1)

/-- The parser as the callers see it: a decoded value or `none` (the source's
`null`). -/
def parseModelJSON (text : List Char) : Option Json := (parseModelJSONT text).1

/-- The spec's name for the caller-facing surface, over `String`. -/
def parseStructured (s : String) : Option Json := parseModelJSON s.data

/-! ### Model of `JSON.stringify` (clean JSON encoding, used by claim C6) -/

/-- Decimal digit character. -/
def digitChar (n : Nat) : Char := Char.ofNat (48 + n)

/-- Lowercase hex digit character. -/
def hexDigitChar (n : Nat) : Char :=
  if n < 10 then Char.ofNat (48 + n) else Char.ofNat (87 + n)

/-- Fuel-indexed decimal rendering of a natural number (most significant digit
first); fuel `n + 1` always suffices. -/
def encodeNatAux : Nat → Nat → List Char
  | 0, _ => []
  | f + 1, n =>
    if n < 10 then [digitChar n]
    else encodeNatAux f (n / 10) ++ [digitChar (n % 10)]

/-- Decimal rendering of a natural number. -/
def encodeNat (n : Nat) : List Char := encodeNatAux (n + 1) n

/-- Decimal rendering of an integer. -/
def encodeInt (n : Int) : List Char :=
  if n < 0 then '-' :: encodeNat (-n).toNat else encodeNat n.toNat

/-- String escaping performed by `JSON.stringify`: quote and backslash get a
backslash escape, the common control characters get their short escapes, the
remaining control characters a `\u00XX` escape, everything else is emitted
raw. -/
def escapeChar (c : Char) : List Char :=
  if c = '"' then ['\\', '"']
  else if c = '\\' then ['\\', '\\']
  else if c = Char.ofNat 8 then ['\\', 'b']
  else if c = '\t' then ['\\', 't']
  else if c = '\n' then ['\\', 'n']
  else if c = Char.ofNat 12 then ['\\', 'f']
  else if c = '\r' then ['\\', 'r']
  else if c.toNat < 32 then
    ['\\', 'u', '0', '0', hexDigitChar (c.toNat / 16), hexDigitChar (c.toNat % 16)]
  else [c]

/-- Escaped body of a string literal. -/
def encodeStringBody : List Char → List Char
  | [] => []
  | c :: t => escapeChar c ++ encodeStringBody t

/-- A quoted, escaped JSON string literal. -/
def encodeStringLit (s : List Char) : List Char :=
  '"' :: encodeStringBody s ++ ['"']

/-- The characters of the `null` keyword. -/
def litNull : List Char := ['n', 'u', 'l', 'l']

/-- The characters of the `true` keyword. -/
def litTrue : List Char := ['t', 'r', 'u', 'e']

/-- The characters of the `false` keyword. -/
def litFalse : List Char := ['f', 'a', 'l', 's', 'e']

mutual

/-- Model of `JSON.stringify` (compact form, no added whitespace). -/
def jsonEncode : Json → List Char
  | .null => litNull
  | .bool true => litTrue
  | .bool false => litFalse
  | .num n => encodeInt n
  | .str s => encodeStringLit s
  | .arr xs => '[' :: encodeElems xs ++ [']']
  | .obj kvs => '{' :: encodeMembers kvs ++ ['}']

/-- Comma-separated encodings of array elements. -/
def encodeElems : List Json → List Char
  | [] => []
  | [x] => jsonEncode x
  | x :: y :: xs => jsonEncode x ++ ',' :: encodeElems (y :: xs)

/-- Comma-separated `key:value` encodings of object members. -/
def encodeMembers : List (List Char × Json) → List Char
  | [] => []
  | [(k, v)] => encodeStringLit k ++ ':' :: jsonEncode v
  | (k, v) :: m :: kvs => encodeStringLit k ++ ':' :: jsonEncode v ++ ',' :: encodeMembers (m :: kvs)

end

/-- Fuel sufficient for `parseV` to parse the encoding of a value: one step
for the value itself, and for containers enough for the first child and for
the rest of the container (which `parseVCore` re-parses as a container). -/
def needFuel : Json → Nat
  | .null => 1
  | .bool _ => 1
  | .num _ => 1
  | .str _ => 1
  | .arr [] => 1
  | .arr (x :: xs) => 1 + max (needFuel x) (needFuel (.arr xs))
  | .obj [] => 1
  | .obj ((_, v) :: kvs) => 1 + max (needFuel v) (needFuel (.obj kvs))

/-! ### Model of the `LiveClient` voice session

The session's state is the set of resources the class owns (source lines
587-596).  Web-API semantics relevant to the claims: awaiting a rejected
promise throws; `track.stop()` and re-closing an audio context do not throw
synchronously; a `.then` continuation registered on a pending promise runs
when the promise resolves. -/

/-- Resources owned by a `LiveClient` instance.  `…Set` mirrors a non-null
field; `tracksLive` / `…Closed` track the effect of release calls (the source
never nulls `stream` or the contexts). -/
structure LCState where
  sessionPromiseSet : Bool := false
  streamSet : Bool := false
  tracksLive : Bool := false
  inputCtxSet : Bool := false
  inputCtxClosed : Bool := false
  outputCtxSet : Bool := false
  outputCtxClosed : Bool := false
  inputSourceSet : Bool := false
  processorSet : Bool := false
  sourcesCount : Nat := 0

/-- The freshly constructed client: nothing acquired. -/
def LCState.init : LCState := {}

/-- Model of `LiveClient.connect` (source lines 599-673).  The environment
flag `userMediaOk` says whether `getUserMedia` resolves (microphone
permission).  Mirrors the source's acquisition order: both audio contexts are
constructed first, then the capture stream is awaited; on rejection the error
propagates with no cleanup.  Opening the network stream only assigns the
(pending) session promise and cannot fail synchronously. -/
def connect (userMediaOk : Bool) (st : LCState) : Option Unit × LCState :=
  let st1 := { st with inputCtxSet := true, inputCtxClosed := false }
  let st2 := { st1 with outputCtxSet := true, outputCtxClosed := false }
  if userMediaOk then
    let st3 := { st2 with streamSet := true, tracksLive := true }
    let st4 := { st3 with inputSourceSet := true, processorSet := true }
    (none, { st4 with sessionPromiseSet := true })
  else
    (some (), st2)

/-- Failure behaviour of the session step of `disconnect`: does awaiting
`this.sessionPromise` throw (a rejected connect promise, e.g. mid-connect
failure), and does `session.close()` throw? -/
structure DisconnectBeh where
  awaitThrows : Bool
  closeThrows : Bool

/-- The release actions `disconnect` can perform, in source order. -/
inductive RAct where
  | sessionClosed
  | tracksStopped
  | inputCtxClosed
  | outputCtxClosed
  | sourcesStopped
  | sourcesCleared
deriving DecidableEq

/-- Steps 2-6 of `disconnect` (source lines 681-687): stop capture tracks,
close both contexts, stop and clear the scheduled sources.  None of these can
throw synchronously; guards mirror the source's null checks. -/
def releaseRest (st : LCState) : LCState × List RAct :=
  let (st2, a2) :=
    if st.streamSet then ({ st with tracksLive := false }, [RAct.tracksStopped])
    else (st, [])
  let (st3, a3) :=
    if st2.inputCtxSet then ({ st2 with inputCtxClosed := true }, [RAct.inputCtxClosed])
    else (st2, [])
  let (st4, a4) :=
    if st3.outputCtxSet then ({ st3 with outputCtxClosed := true }, [RAct.outputCtxClosed])
    else (st3, [])
  ({ st4 with sourcesCount := 0 },
    a2 ++ a3 ++ a4 ++ [RAct.sourcesStopped, RAct.sourcesCleared])

/-- Model of `LiveClient.disconnect` (source lines 675-688): if a session
promise is set it is awaited and closed first, with no try/catch around any
step; a throw there aborts the whole method before any later release step
runs.  Returns the propagated error (if any), the resulting state, and the
list of release actions that executed. -/
def disconnect (beh : DisconnectBeh) (st : LCState) :
    Option Unit × LCState × List RAct :=
  if st.sessionPromiseSet then
    if beh.awaitThrows then (some (), st, [])
    else if beh.closeThrows then (some (), st, [])
    else
      let st1 := { st with sessionPromiseSet := false }
      let (st2, acts) := releaseRest st1
      (none, st2, RAct.sessionClosed :: acts)
  else
    let (st2, acts) := releaseRest st
    (none, st2, acts)

/-! #### Outbound capture path (claim C4) -/

/-- An outbound audio frame, abstracted to an identifier (its PCM payload does
not matter to the claims). -/
abbrev Frame := Nat

/-- The state of `this.sessionPromise` as the capture callback sees it:
`null` (not yet assigned), a pending promise carrying the send continuations
already registered on it, or a resolved promise whose sends have gone out. -/
inductive SessionPromise where
  | null : SessionPromise
  | pending (queuedSends : List Frame) : SessionPromise
  | resolved (sent : List Frame) : SessionPromise

/-- Model of the `onaudioprocess` capture callback (source lines 608-616): the
frame is encoded and, if `this.sessionPromise` is non-null, a send is
registered on it with `.then` — on a pending promise this queues the send for
delivery at resolution time; on a null promise the frame is discarded.  The
callback never awaits and never throws. -/
def onaudioprocess (sp : SessionPromise) (frame : Frame) : SessionPromise :=
  match sp with
  | .null => .null
  | .pending q => .pending (q ++ [frame])
  | .resolved sent => .resolved (sent ++ [frame])

/-- Resolution of the connect promise (the network stream opens): the
continuations registered while pending run in order, sending their frames. -/
def resolveSession : SessionPromise → SessionPromise
  | .pending q => .resolved q
  | sp => sp

/-- Frames that have actually been handed to the network stream. -/
def deliveredFrames : SessionPromise → List Frame
  | .resolved sent => sent
  | _ => []

/-! #### Inbound playback scheduling (claims C2) -/

/-- One audio-output step of the `onmessage` handler (source lines 629, 642,
643): clamp the cursor to the playback clock, start the buffer there, advance
the cursor by the buffer's duration.  Returns (scheduled start, new cursor).
Times are rationals; the decode `await` is modelled as part of one atomic
handler run, per the spec's single-threaded event model (§5). -/
def scheduleChunk (nextStartTime now dur : ℚ) : ℚ × ℚ :=
  let start := max nextStartTime now
  (start, start + dur)

/-- The scheduled start times of a run of inbound chunks, each given as
(playback-clock time when processed, buffer duration). -/
def scheduleAll : ℚ → List (ℚ × ℚ) → List ℚ
  | _, [] => []
  | cursor, (now, dur) :: rest =>
    (scheduleChunk cursor now dur).1 :: scheduleAll (scheduleChunk cursor now dur).2 rest

/-! #### Transcription events (claim C8) -/

/-- A transcript fragment of an inbound stream message (its `text` field may
be absent). -/
structure Transcription where
  text : Option String

/-- The `serverContent` payload of an inbound stream message, as read by the
handler: optional transcription per direction.  (The audio chunk path is
modelled by `scheduleChunk` above.) -/
structure ServerContent where
  inputTranscription : Option Transcription
  outputTranscription : Option Transcription

/-- An inbound stream message. -/
structure LiveServerMessage where
  serverContent : Option ServerContent

/-- The inbound partial text extracted by the handler (source lines 648-652):
empty when any level is absent, JavaScript `|| ''` on the text field. -/
def inTextOf (m : LiveServerMessage) : String :=
  match m.serverContent with
  | some sc =>
    match sc.inputTranscription with
    | some tr => tr.text.getD ""
    | none => ""
  | none => ""

/-- The outbound partial text extracted by the handler (source lines 653-655). -/
def outTextOf (m : LiveServerMessage) : String :=
  match m.serverContent with
  | some sc =>
    match sc.outputTranscription with
    | some tr => tr.text.getD ""
    | none => ""
  | none => ""

/-- The transcription-callback invocation produced by one inbound message
(source lines 656-658): `some (inText, outText)` exactly when the JavaScript
truthiness test `inText || outText` passes. -/
def onTranscriptionEvent (m : LiveServerMessage) : Option (String × String) :=
  let i := inTextOf m
  let o := outTextOf m
  if i ≠ "" ∨ o ≠ "" then some (i, o) else none

/-! ### Concrete inputs used to instantiate and to refute claims -/

/-- The spec's P5 input, `I found nothing.` -/
def exNoBrace : List Char :=
  ['I', ' ', 'f', 'o', 'u', 'n', 'd', ' ', 'n', 'o', 't', 'h', 'i', 'n', 'g', '.']

/-- An input whose brace count never returns to zero (the `{` inside the
string value is counted), yet whose prefix up to the last `}` is valid JSON:
the text `{"a": "{"} tail`. -/
def ex5 : List Char :=
  ['{', '"', 'a', '"', ':', ' ', '"', '{', '"', '}', ' ', 't', 'a', 'i', 'l']

/-- An input where the balanced end is found too early (the `}` inside the
string value is counted), stage 4 fails, and the last-resort stage succeeds:
the text `{"a": "}"} tail`. -/
def ex5b : List Char :=
  ['{', '"', 'a', '"', ':', ' ', '"', '}', '"', '}', ' ', 't', 'a', 'i', 'l']

/-- A minimal clean JSON object input, `{"a":1}`. -/
def exObj : List Char := ['{', '"', 'a', '"', ':', '1', '}']

/-- An inbound message carrying a non-empty inbound transcript fragment. -/
def msgHi : LiveServerMessage := ⟨some ⟨some ⟨some "hi"⟩, none⟩⟩

/-- The session state after a successful `connect` on a fresh client. -/
def stConnected : LCState := (connect true LCState.init).2

/-- An object value whose encoding contains a markdown fence marker inside a
string value. -/
def vFence : Json := Json.obj [(['a'], Json.str [btick, btick, btick])]

/-- The object value `{"a":1}`. -/
def vObjA : Json := Json.obj [(['a'], Json.num 1)]

/-! ## Theorems -/

/-- Whatever the cursor, the first scheduled start of a nonempty run is at
least the incoming cursor value. -/
theorem scheduleAll_head_ge (c : ℚ) (chunks : List (ℚ × ℚ)) :
    ∀ b, (scheduleAll c chunks).head? = some b → c ≤ b := by
  intro b hb
  cases chunks with
  | nil => simp [scheduleAll] at hb
  | cons p rest =>
    obtain ⟨now, d⟩ := p
    simp [scheduleAll, scheduleChunk] at hb
    rw [← hb]
    exact le_max_left _ _

/-- With nonnegative durations, scheduled starts are monotone. -/
theorem scheduleAll_monotone (chunks : List (ℚ × ℚ)) (h : ∀ p ∈ chunks, 0 ≤ p.2) :
    ∀ c, List.Chain' (· ≤ ·) (scheduleAll c chunks) := by
  induction chunks with
  | nil => intro c; simp [scheduleAll]
  | cons p rest ih =>
    intro c
    obtain ⟨now, d⟩ := p
    have hd : 0 ≤ d := h (now, d) (List.mem_cons_self _ _)
    have hrest : ∀ p ∈ rest, 0 ≤ p.2 := fun q hq => h q (List.mem_cons_of_mem _ hq)
    rw [scheduleAll]
    rw [List.chain'_cons']
    refine ⟨?_, ih hrest _⟩
    intro b hb
    have h1 := scheduleAll_head_ge (scheduleChunk c now d).2 rest b hb
    have h2 : (scheduleChunk c now d).1 ≤ (scheduleChunk c now d).2 := by
      simp [scheduleChunk]
      linarith
    exact le_trans h2 h1

/-- Claim C1: for every input, the parser returns either a decoded value or
Empty (`none`).  Termination and exception-freedom hold by construction: the
embedding is a total function into `Option Json`, mirroring the source, in
which every `JSON.parse` call is wrapped in try/catch and every path returns. -/
theorem parseModelJSON_total (text : List Char) :
    parseModelJSON text = none ∨ ∃ v, parseModelJSON text = some v := by
  cases h : parseModelJSON text with
  | none => exact Or.inl rfl
  | some v => exact Or.inr ⟨v, rfl⟩

/-- Claim C2: each inbound chunk is scheduled at `max(cursor, now)` and the
cursor advances to that start plus the buffer's duration; consequently, when
the next chunk's clock reading does not exceed the advanced cursor (no
underrun), consecutive chunks are scheduled back-to-back, and with
nonnegative durations no chunk is ever scheduled before an earlier one. -/
theorem playback_scheduling :
    (∀ c now d : ℚ, scheduleChunk c now d = (max c now, max c now + d))
    ∧ (∀ (c now d now2 d2 : ℚ) (rest : List (ℚ × ℚ)), now2 ≤ max c now + d →
        scheduleAll c ((now, d) :: (now2, d2) :: rest)
          = max c now :: (max c now + d) :: scheduleAll (max c now + d + d2) rest)
    ∧ (∀ (c : ℚ) (chunks : List (ℚ × ℚ)), (∀ p ∈ chunks, 0 ≤ p.2) →
        List.Chain' (· ≤ ·) (scheduleAll c chunks)) := by
  refine ⟨fun c now d => rfl, ?_, ?_⟩
  · intro c now d now2 d2 rest h
    simp only [scheduleAll, scheduleChunk]
    rw [max_eq_left h]
  · intro c chunks h
    exact scheduleAll_monotone chunks h c

/-- Witness for C2 at concrete inputs. -/
theorem playback_scheduling_check :
    scheduleChunk 0 0 1 = (0, 1)
    ∧ scheduleAll 0 [(0, 1), (0, 2)] = [0, 1]
    ∧ List.Chain' (· ≤ ·) (scheduleAll 0 [(0, 1), (0, 2), (4, 3)]) := by
  refine ⟨?_, ?_, ?_⟩
  · have h := playback_scheduling.1 0 0 1
    simpa using h
  · have h := playback_scheduling.2.1 0 0 1 0 2 [] (by norm_num)
    simpa using h
  · exact playback_scheduling.2.2 0 [(0, 1), (0, 2), (4, 3)]
      (by intro p hp; fin_cases hp <;> norm_num)

/-- Helper: the release steps do not touch the session-promise field. -/
theorem releaseRest_sessionPromise (st : LCState) :
    (releaseRest st).1.sessionPromiseSet = st.sessionPromiseSet := by
  simp only [releaseRest]
  split <;> split <;> split <;> rfl

/-- Claim C3 counterexample: on a fully connected client, if awaiting the
session promise throws (exactly the mid-connect-failure situation),
`disconnect` propagates the error, executes none of the release steps, and
leaves the capture tracks live — refuting both "never throws" and "each
release step is isolated". -/
theorem disconnect_throw_skips_release :
    (disconnect ⟨true, false⟩ stConnected).1 = some ()
    ∧ (disconnect ⟨true, false⟩ stConnected).2.2 = []
    ∧ (disconnect ⟨true, false⟩ stConnected).2.1.tracksLive = true := by
  exact ⟨rfl, rfl, rfl⟩

/-- Claim C3 (amended): `disconnect` produces no error when no session
promise is set (never connected, or a repeated call) or when the session
step does not throw — in particular calling it twice in a row is safe; but
the release steps are not isolated: whenever a session promise is set and
awaiting it or closing it throws, the error propagates and no release step
executes at all. -/
theorem disconnect_behavior (st : LCState) (beh : DisconnectBeh) :
    (st.sessionPromiseSet = false → (disconnect beh st).1 = none)
    ∧ (beh.awaitThrows = false → beh.closeThrows = false →
        (disconnect beh st).1 = none
        ∧ (disconnect beh (disconnect beh st).2.1).1 = none)
    ∧ (st.sessionPromiseSet = true → (beh.awaitThrows = true ∨ beh.closeThrows = true) →
        (disconnect beh st).1 = some () ∧ (disconnect beh st).2.2 = []) := by
  refine ⟨?_, ?_, ?_⟩
  · intro hs
    simp [disconnect, hs]
  · intro ha hc
    by_cases hs : st.sessionPromiseSet
    · constructor
      · simp [disconnect, hs, ha, hc]
      · have h2 : (disconnect beh st).2.1.sessionPromiseSet = false := by
          simp [disconnect, hs, ha, hc, releaseRest_sessionPromise]
        generalize hg : (disconnect beh st).2.1 = st2 at h2 ⊢
        simp [disconnect, h2]
    · have hs' : st.sessionPromiseSet = false := by simpa using hs
      constructor
      · simp [disconnect, hs']
      · have h2 : (disconnect beh st).2.1.sessionPromiseSet = false := by
          simp [disconnect, hs', releaseRest_sessionPromise]
        generalize hg : (disconnect beh st).2.1 = st2 at h2 ⊢
        simp [disconnect, h2]
  · intro hs hthrow
    rcases hthrow with ha | hc
    · constructor <;> simp [disconnect, hs, ha]
    · by_cases ha : beh.awaitThrows = true
      · constructor <;> simp [disconnect, hs, ha]
      · have ha' : beh.awaitThrows = false := by simpa using ha
        constructor <;> simp [disconnect, hs, ha', hc]

/-- Witness for C3 (amended) at concrete states and behaviours. -/
theorem disconnect_behavior_check :
    (disconnect ⟨false, false⟩ LCState.init).1 = none
    ∧ (disconnect ⟨false, false⟩ stConnected).1 = none
    ∧ (disconnect ⟨false, false⟩ (disconnect ⟨false, false⟩ stConnected).2.1).1 = none
    ∧ (disconnect ⟨true, true⟩ stConnected).1 = some ()
    ∧ (disconnect ⟨true, true⟩ stConnected).2.2 = [] := by
  refine ⟨?_, ?_, ?_, ?_, ?_⟩
  · exact (disconnect_behavior LCState.init ⟨false, false⟩).1 rfl
  · exact ((disconnect_behavior stConnected ⟨false, false⟩).2.1 rfl rfl).1
  · exact ((disconnect_behavior stConnected ⟨false, false⟩).2.1 rfl rfl).2
  · exact ((disconnect_behavior stConnected ⟨true, true⟩).2.2 rfl (Or.inl rfl)).1
  · exact ((disconnect_behavior stConnected ⟨true, true⟩).2.2 rfl (Or.inl rfl)).2

/-- Claim C4 counterexample: a frame produced while the connect promise is
pending — the network stream not yet open — is not dropped: the `.then`
registration queues it on the promise and it is delivered when the stream
opens. -/
theorem pending_frame_delivered :
    onaudioprocess (SessionPromise.pending []) 0 = SessionPromise.pending [0]
    ∧ deliveredFrames (resolveSession (onaudioprocess (SessionPromise.pending []) 0)) = [0] :=
  ⟨rfl, rfl⟩

/-- Claim C4 (amended): a frame produced while `sessionPromise` is null is
dropped and never delivered; a frame produced while the connect promise is
pending is queued as a `.then` continuation and delivered when the promise
resolves.  In both cases the capture callback is a total function that
registers at most a continuation — it never raises and performs no blocking
wait. -/
theorem outbound_frame_policy :
    (∀ f, onaudioprocess SessionPromise.null f = SessionPromise.null)
    ∧ (∀ f, deliveredFrames (resolveSession (onaudioprocess SessionPromise.null f)) = [])
    ∧ (∀ q f, onaudioprocess (SessionPromise.pending q) f = SessionPromise.pending (q ++ [f]))
    ∧ (∀ q, deliveredFrames (resolveSession (SessionPromise.pending q)) = q) :=
  ⟨fun _ => rfl, fun _ => rfl, fun _ _ => rfl, fun _ => rfl⟩

/-- Claim C7 counterexample: when `getUserMedia` rejects (microphone
permission denied), `connect` propagates the error while both audio contexts
created beforehand remain open — the partially acquired resources are not
released. -/
theorem connect_failure_leak :
    (connect false LCState.init).1 = some ()
    ∧ (connect false LCState.init).2.inputCtxSet = true
    ∧ (connect false LCState.init).2.inputCtxClosed = false
    ∧ (connect false LCState.init).2.outputCtxSet = true
    ∧ (connect false LCState.init).2.outputCtxClosed = false :=
  ⟨rfl, rfl, rfl, rfl, rfl⟩

/-- Claim C7 (amended): if `connect` fails at the capture-acquisition step,
the error propagates and the two audio contexts constructed before it are
left open — no cleanup of partially acquired resources is performed, from any
starting state. -/
theorem connect_failure_no_cleanup (st : LCState) :
    connect false st
      = (some (), { st with inputCtxSet := true, inputCtxClosed := false,
                            outputCtxSet := true, outputCtxClosed := false }) := rfl

/-- Claim C8: the transcription callback fires exactly when at least one
direction of the message carries a non-empty transcript fragment, and it is
always invoked with the pair of extracted fragments. -/
theorem transcription_event_iff (m : LiveServerMessage) :
    ((onTranscriptionEvent m).isSome = true ↔ (inTextOf m ≠ "" ∨ outTextOf m ≠ ""))
    ∧ (∀ p, onTranscriptionEvent m = some p → p = (inTextOf m, outTextOf m)) := by
  constructor
  · by_cases h : inTextOf m ≠ "" ∨ outTextOf m ≠ "" <;> simp [onTranscriptionEvent, h]
  · intro p hp
    by_cases h : inTextOf m ≠ "" ∨ outTextOf m ≠ ""
    · simp only [onTranscriptionEvent, if_pos h] at hp
      exact (Option.some_inj.mp hp).symm
    · simp only [onTranscriptionEvent, if_neg h] at hp
      exact absurd hp (by simp)

/-- Witness for C8 at a concrete message. -/
theorem transcription_event_check :
    (onTranscriptionEvent msgHi).isSome = true
    ∧ ("hi", "") = (inTextOf msgHi, outTextOf msgHi) := by
  constructor
  · exact (transcription_event_iff msgHi).1.mpr (Or.inl (by decide))
  · exact ((transcription_event_iff msgHi).2 ("hi", "") rfl).symm

/-! ### Structural lemmas about the parser pipeline -/

/-- `indexOf` really points at the character searched for. -/
theorem indexOfChar_head (s : List Char) (c : Char) :
    ∀ i, indexOfChar s c = some i → (s.drop i).head? = some c := by
  induction s with
  | nil => intro i h; simp [indexOfChar] at h
  | cons x t ih =>
    intro i h
    by_cases hx : x = c
    · simp [indexOfChar, hx] at h
      subst h
      simp [hx]
    · simp [indexOfChar, hx] at h
      obtain ⟨j, hj, hij⟩ := h
      subst hij
      simpa using ih j hj

/-- Truncating after at least one character keeps the head. -/
theorem head?_take (l : List Char) (n : Nat) : (l.take (n + 1)).head? = l.head? := by
  cases l <;> simp

/-- Whitespace skipping does nothing on a non-whitespace head. -/
theorem skipWs_cons_of {c : Char} (r : List Char) (h : isJsonWs c = false) :
    skipWs (c :: r) = c :: r := by
  simp [skipWs, List.dropWhile_cons, h]

/-- Extracting the object constructor from a successful pair equation. -/
theorem isObj_of_pair_eq {l : List (List Char × Json)} {t : List Char} {v : Json}
    {rest : List Char}
    (h : (some (Json.obj l, t) : Option (Json × List Char)) = some (v, rest)) :
    v.isObj = true := by
  have h1 := Option.some_inj.mp h
  have hv : Json.obj l = v := congrArg Prod.fst h1
  rw [← hv]
  rfl

/-- Every success of the object body is an object value. -/
theorem parseObjBody_obj (pv : List Char → Option (Json × List Char)) (r : List Char)
    (v : Json) (rest : List Char)
    (h : parseObjBody pv r = some (v, rest)) : v.isObj = true := by
  unfold parseObjBody at h
  by_cases h1 : (skipWs r).head? = some '}'
  · rw [if_pos h1] at h
    exact isObj_of_pair_eq h
  · rw [if_neg h1] at h
    by_cases h2 : (skipWs r).head? = some '"'
    · rw [if_pos h2] at h
      cases hps : parseStringRest (skipWs r).tail with
      | none => rw [hps] at h; exact absurd h (by simp)
      | some p =>
        obtain ⟨k, r2⟩ := p
        rw [hps] at h
        simp only [] at h
        by_cases h3 : (skipWs r2).head? = some ':'
        · rw [if_pos h3] at h
          cases hpv : pv (skipWs r2).tail with
          | none => rw [hpv] at h; exact absurd h (by simp)
          | some q =>
            obtain ⟨x, r4⟩ := q
            rw [hpv] at h
            simp only [] at h
            by_cases h4 : (skipWs r4).head? = some ','
            · rw [if_pos h4] at h
              by_cases h5 : (skipWs (skipWs r4).tail).head? = some '"'
              · rw [if_pos h5] at h
                cases hpv2 : pv ('{' :: (skipWs r4).tail) with
                | none => rw [hpv2] at h; exact absurd h (by simp)
                | some q2 =>
                  obtain ⟨x2, r6⟩ := q2
                  rw [hpv2] at h
                  cases x2 with
                  | obj kvs => exact isObj_of_pair_eq h
                  | null => exact absurd h (by simp)
                  | bool b => exact absurd h (by simp)
                  | num n => exact absurd h (by simp)
                  | str s => exact absurd h (by simp)
                  | arr xs => exact absurd h (by simp)
              · rw [if_neg h5] at h
                exact absurd h (by simp)
            · rw [if_neg h4] at h
              by_cases h6 : (skipWs r4).head? = some '}'
              · rw [if_pos h6] at h
                exact isObj_of_pair_eq h
              · rw [if_neg h6] at h
                exact absurd h (by simp)
        · rw [if_neg h3] at h
          exact absurd h (by simp)
    · rw [if_neg h2] at h
      exact absurd h (by simp)

/-- A successful parse whose (whitespace-skipped) input starts with `{`
yields an object value. -/
theorem parseV_obj (fuel : Nat) (s : List Char) (v : Json) (rest : List Char)
    (h : parseV fuel s = some (v, rest)) (hh : (skipWs s).head? = some '{') :
    v.isObj = true := by
  cases fuel with
  | zero => simp [parseV] at h
  | succ f =>
    rw [parseV] at h
    obtain ⟨r, hr⟩ : ∃ r, skipWs s = '{' :: r := by
      cases hsw : skipWs s with
      | nil => rw [hsw] at hh; simp at hh
      | cons a t =>
        rw [hsw] at hh
        simp at hh
        exact ⟨t, by rw [hh]⟩
    rw [hr] at h
    have hd : parseVCore (parseV f) ('{' :: r) = parseObjBody (parseV f) r := rfl
    rw [hd] at h
    exact parseObjBody_obj _ _ _ _ h

/-- A successful `JSON.parse` of an input whose first character is `{` is an
object value. -/
theorem jsonParse_obj (s : List Char) (v : Json)
    (h : jsonParse s = some v) (hh : s.head? = some '{') : v.isObj = true := by
  unfold jsonParse at h
  cases hp : parseV (s.length + 1) s with
  | none => rw [hp] at h; exact absurd h (by simp)
  | some pr =>
    obtain ⟨w, rest⟩ := pr
    rw [hp] at h
    simp only [] at h
    by_cases ht : skipWs rest = []
    · rw [if_pos ht] at h
      have hw : w = v := Option.some_inj.mp h
      subst hw
      obtain ⟨t, hs⟩ : ∃ t, s = '{' :: t := by
        cases s with
        | nil => simp at hh
        | cons a t =>
          simp at hh
          exact ⟨t, by rw [hh]⟩
      have hsw : (skipWs s).head? = some '{' := by
        rw [hs, skipWs_cons_of t (by decide)]
        rfl
      exact parseV_obj _ _ _ _ hp hsw
    · rw [if_neg ht] at h
      exact absurd h (by simp)

/-- Claim C9: when the cleaned text contains no opening brace, the parser
returns Empty having made zero decode attempts. -/
theorem no_brace_returns_empty (text : List Char)
    (h : indexOfChar (cleanText text) '{' = none) :
    parseModelJSONT text = (none, 0) := by
  unfold parseModelJSONT
  by_cases ht : text = []
  · rw [if_pos ht]
  · rw [if_neg ht]
    rw [h]

/-- Witness for C9 on the spec's P5 input. -/
theorem no_brace_returns_empty_check : parseModelJSONT exNoBrace = (none, 0) :=
  no_brace_returns_empty exNoBrace rfl

/-- Claim C10: every non-Empty result of the parser is a JSON object — all
three decode stages parse a substring that starts at the first `{`. -/
theorem parse_result_is_object (text : List Char) (v : Json)
    (h : parseModelJSON text = some v) : v.isObj = true := by
  unfold parseModelJSON parseModelJSONT at h
  by_cases ht : text = []
  · rw [if_pos ht] at h
    exact absurd h (by simp)
  · rw [if_neg ht] at h
    cases hidx : indexOfChar (cleanText text) '{' with
    | none =>
      rw [hidx] at h
      exact absurd h (by simp)
    | some start =>
      rw [hidx] at h
      simp only [] at h
      have hhead : ((cleanText text).drop start).head? = some '{' :=
        indexOfChar_head _ _ start hidx
      cases h1 : jsonParse ((cleanText text).drop start) with
      | some w =>
        rw [h1] at h
        simp only [] at h
        have hw : w = v := Option.some_inj.mp h
        subst hw
        exact jsonParse_obj _ _ h1 hhead
      | none =>
        rw [h1] at h
        simp only [] at h
        cases h2 : findBalanceEnd ((cleanText text).drop start) with
        | none =>
          rw [h2] at h
          exact absurd h (by simp)
        | some e =>
          rw [h2] at h
          simp only [] at h
          cases h3 : jsonParse (((cleanText text).drop start).take (e + 1)) with
          | some w =>
            rw [h3] at h
            simp only [] at h
            have hw : w = v := Option.some_inj.mp h
            subst hw
            refine jsonParse_obj _ _ h3 ?_
            rw [head?_take]
            exact hhead
          | none =>
            rw [h3] at h
            simp only [] at h
            cases h4 : lastIndexOfChar ((cleanText text).drop start) '}' with
            | none =>
              rw [h4] at h
              exact absurd h (by simp)
            | some lb =>
              rw [h4] at h
              simp only [] at h
              cases h5 : jsonParse (((cleanText text).drop start).take (lb + 1)) with
              | some w =>
                rw [h5] at h
                simp only [] at h
                have hw : w = v := Option.some_inj.mp h
                subst hw
                refine jsonParse_obj _ _ h5 ?_
                rw [head?_take]
                exact hhead
              | none =>
                rw [h5] at h
                exact absurd h (by simp)

/-- Witness for C10 on a clean object input. -/
theorem parse_result_is_object_check : Json.isObj vObjA = true :=
  parse_result_is_object exObj vObjA rfl

/-- Claim C5 counterexample: on the input `{"a": "{"} tail` the fast path
fails, the depth counter never returns to zero, and the parser returns Empty
after a single decode attempt — the last-resort truncation at the last `}` is
never attempted, although it would have succeeded. -/
theorem last_resort_skipped_cex :
    parseModelJSONT ex5 = (none, 1)
    ∧ findBalanceEnd ((cleanText ex5).drop 0) = none
    ∧ lastIndexOfChar ((cleanText ex5).drop 0) '}' = some 9
    ∧ jsonParse (((cleanText ex5).drop 0).take 10)
        = some (Json.obj [(['a'], Json.str ['{'])]) :=
  ⟨rfl, rfl, rfl, rfl⟩

/-- Claim C5 (amended): when the fast path fails, the last-resort truncation
at the last `}` is attempted only if the depth counter returned to zero at
some position and decoding that balanced prefix failed; if the depth counter
never returns to zero the parser returns Empty with no last-resort attempt. -/
theorem last_resort_only_after_balanced (text : List Char) (start : Nat)
    (hidx : indexOfChar (cleanText text) '{' = some start)
    (hfast : jsonParse ((cleanText text).drop start) = none) :
    (findBalanceEnd ((cleanText text).drop start) = none →
        parseModelJSONT text = (none, 1))
    ∧ (∀ e lb, findBalanceEnd ((cleanText text).drop start) = some e →
        jsonParse (((cleanText text).drop start).take (e + 1)) = none →
        lastIndexOfChar ((cleanText text).drop start) '}' = some lb →
        parseModelJSONT text = (jsonParse (((cleanText text).drop start).take (lb + 1)), 3)) := by
  have ht : text ≠ [] := by
    intro he
    rw [he] at hidx
    have h0 : indexOfChar (cleanText ([] : List Char)) '{' = none := rfl
    rw [h0] at hidx
    exact absurd hidx (by simp)
  constructor
  · intro hbal
    unfold parseModelJSONT
    rw [if_neg ht]
    rw [hidx]
    simp only []
    rw [hfast]
    simp only []
    rw [hbal]
  · intro e lb hbal hmid hlast
    unfold parseModelJSONT
    rw [if_neg ht]
    rw [hidx]
    simp only []
    rw [hfast]
    simp only []
    rw [hbal]
    simp only []
    rw [hmid]
    simp only []
    rw [hlast]
    simp only []
    cases h4 : jsonParse (((cleanText text).drop start).take (lb + 1)) with
    | none => rfl
    | some w => rfl

/-- Witness for C5 (amended) on the two concrete inputs exercising both
branches. -/
theorem last_resort_only_after_balanced_check :
    parseModelJSONT ex5 = (none, 1)
    ∧ parseModelJSONT ex5b = (jsonParse (((cleanText ex5b).drop 0).take 10), 3) := by
  constructor
  · exact (last_resort_only_after_balanced ex5 0 rfl rfl).1 rfl
  · exact (last_resort_only_after_balanced ex5b 0 rfl rfl).2 7 9 rfl rfl rfl

/-! ### Lemmas for the clean-encoding round trip (claim C6) -/

theorem isPrefixList_append_left (p q : List Char) :
    ∀ s, isPrefixList (p ++ q) s = true → isPrefixList p s = true := by
  induction p with
  | nil => intro s _; rfl
  | cons a as ih =>
    intro s h
    cases s with
    | nil => simp [isPrefixList] at h
    | cons b bs =>
      simp only [List.cons_append, isPrefixList, Bool.and_eq_true] at h ⊢
      exact ⟨h.1, ih bs h.2⟩

theorem containsSub_append_left (p q : List Char) :
    ∀ s, containsSub s (p ++ q) = true → containsSub s p = true := by
  intro s
  induction s with
  | nil =>
    intro h
    simp only [containsSub] at h ⊢
    exact isPrefixList_append_left p q [] h
  | cons c t ih =>
    intro h
    simp only [containsSub, Bool.or_eq_true] at h ⊢
    rcases h with h | h
    · exact Or.inl (isPrefixList_append_left p q _ h)
    · exact Or.inr (ih h)

theorem replaceAllF_id (pat : List Char) :
    ∀ f s, s.length ≤ f → containsSub s pat = false → replaceAllF pat f s = s := by
  intro f
  induction f with
  | zero =>
    intro s hl _
    cases s with
    | nil => rfl
    | cons c t => simp at hl
  | succ f ih =>
    intro s hl hc
    cases s with
    | nil => rfl
    | cons c t =>
      simp only [containsSub, Bool.or_eq_false_iff] at hc
      rw [replaceAllF, if_neg (by simp [hc.1])]
      have := ih t (by simpa using Nat.lt_succ_iff.mp (Nat.lt_succ_of_le (by simpa using hl)))
      rw [ih t (by simp at hl; omega) hc.2]

theorem replaceAll_id (pat s : List Char) (h : containsSub s pat = false) :
    replaceAll pat s = s :=
  replaceAllF_id pat s.length s (Nat.le_refl _) h

theorem trimChars_id (c d : Char) (l : List Char)
    (hc : isTrimWs c = false) (hd : isTrimWs d = false) :
    trimChars (c :: (l ++ [d])) = c :: (l ++ [d]) := by
  unfold trimChars
  have h1 : List.dropWhile isTrimWs (c :: (l ++ [d])) = c :: (l ++ [d]) := by
    rw [List.dropWhile_cons, hc]
    simp
  rw [h1]
  have h2 : (c :: (l ++ [d])).reverse = d :: (l.reverse ++ [c]) := by
    simp
  rw [h2]
  have h3 : List.dropWhile isTrimWs (d :: (l.reverse ++ [c])) = d :: (l.reverse ++ [c]) := by
    rw [List.dropWhile_cons, hd]
    simp
  rw [h3]
  simp


theorem digitVal_digitChar : ∀ n < 10, digitVal (digitChar n) = n := by decide

theorem digitChar_isDigit : ∀ n < 10, (digitChar n).isDigit = true := by decide

theorem digitChar_ne_zero : ∀ n < 10, 1 ≤ n → digitChar n ≠ '0' := by decide

theorem encodeNatAux_ne_nil : ∀ f n, n < f → encodeNatAux f n ≠ [] := by
  intro f
  induction f with
  | zero => intro n h; omega
  | succ f ih =>
    intro n h
    rw [encodeNatAux]
    by_cases h10 : n < 10
    · simp [h10]
    · rw [if_neg h10]
      intro hcon
      exact absurd (List.append_eq_nil.mp hcon).2 (by simp)

theorem encodeNatAux_digits : ∀ f n, n < f → ∀ c ∈ encodeNatAux f n, c.isDigit = true := by
  intro f
  induction f with
  | zero => intro n h; omega
  | succ f ih =>
    intro n h c hc
    rw [encodeNatAux] at hc
    by_cases h10 : n < 10
    · rw [if_pos h10] at hc
      simp at hc
      rw [hc]
      exact digitChar_isDigit n h10
    · rw [if_neg h10] at hc
      rcases List.mem_append.mp hc with hm | hm
      · exact ih (n / 10) (by omega) c hm
      · simp at hm
        rw [hm]
        exact digitChar_isDigit (n % 10) (Nat.mod_lt n (by omega))

theorem encodeNatAux_head_ne_zero :
    ∀ f n, n < f → 1 ≤ n → ∀ c, (encodeNatAux f n).head? = some c → c ≠ '0' := by
  intro f
  induction f with
  | zero => intro n h; omega
  | succ f ih =>
    intro n h h1 c hc
    rw [encodeNatAux] at hc
    by_cases h10 : n < 10
    · rw [if_pos h10] at hc
      simp at hc
      rw [← hc]
      exact digitChar_ne_zero n h10 h1
    · rw [if_neg h10] at hc
      cases haux : encodeNatAux f (n / 10) with
      | nil => exact absurd haux (encodeNatAux_ne_nil f (n / 10) (by omega))
      | cons x t =>
        rw [haux] at hc
        simp at hc
        rw [← hc]
        refine ih (n / 10) (by omega) (by omega) x ?_
        rw [haux]
        rfl

theorem digitsToNat_append (xs : List Char) (d : Char) :
    digitsToNat (xs ++ [d]) = digitsToNat xs * 10 + digitVal d := by
  simp [digitsToNat, List.foldl_append]

theorem encodeNatAux_val : ∀ f n, n < f → digitsToNat (encodeNatAux f n) = n := by
  intro f
  induction f with
  | zero => intro n h; omega
  | succ f ih =>
    intro n h
    rw [encodeNatAux]
    by_cases h10 : n < 10
    · rw [if_pos h10]
      have : digitsToNat [digitChar n] = digitVal (digitChar n) := by
        simp [digitsToNat]
      rw [this, digitVal_digitChar n h10]
    · rw [if_neg h10]
      rw [digitsToNat_append, ih (n / 10) (by omega),
          digitVal_digitChar (n % 10) (Nat.mod_lt n (by omega))]
      omega

theorem takeWhile_append_all (p : Char → Bool) :
    ∀ (l r : List Char), (∀ x ∈ l, p x = true) → (∀ c, r.head? = some c → p c = false) →
      (l ++ r).takeWhile p = l ∧ (l ++ r).dropWhile p = r := by
  intro l
  induction l with
  | nil =>
    intro r _ hr
    cases r with
    | nil => simp
    | cons c t =>
      have := hr c rfl
      simp [List.takeWhile_cons, List.dropWhile_cons, this]
  | cons a as ih =>
    intro r h hr
    have ha : p a = true := h a (List.mem_cons_self _ _)
    have has : ∀ x ∈ as, p x = true := fun x hx => h x (List.mem_cons_of_mem _ hx)
    obtain ⟨h1, h2⟩ := ih r has hr
    constructor
    · simp [List.takeWhile_cons, ha, h1]
    · simp [List.dropWhile_cons, ha, h2]

theorem leadingZeroBad_encodeNat (m : Nat) : leadingZeroBad (encodeNat m) = false := by
  by_cases hm : m = 0
  · rw [hm]
    rfl
  · cases haux : encodeNat m with
    | nil => exact absurd haux (encodeNatAux_ne_nil (m + 1) m (by omega))
    | cons x t =>
      have hx : x ≠ '0' := by
        refine encodeNatAux_head_ne_zero (m + 1) m (by omega) (by omega) x ?_
        rw [show encodeNatAux (m + 1) m = encodeNat m from rfl, haux]
        rfl
      cases t with
      | nil => rfl
      | cons y u => simp [leadingZeroBad, hx]

theorem parseNumberCore_encode (m : Nat) (rest : List Char)
    (hr : ∀ c, rest.head? = some c → c.isDigit = false) :
    parseNumberCore (encodeNat m ++ rest) = some ((m : Int), rest) := by
  have hdig : ∀ c ∈ encodeNat m, c.isDigit = true :=
    encodeNatAux_digits (m + 1) m (by omega)
  obtain ⟨htake, hdrop⟩ := takeWhile_append_all Char.isDigit (encodeNat m) rest hdig hr
  unfold parseNumberCore
  rw [htake, hdrop]
  rw [if_neg (by simp [List.isEmpty_iff]; exact encodeNatAux_ne_nil (m + 1) m (by omega))]
  rw [if_neg (by simp [leadingZeroBad_encodeNat m])]
  have hv : digitsToNat (encodeNat m) = m := encodeNatAux_val (m + 1) m (by omega)
  rw [hv]

theorem isDigit_ne_minus {c : Char} (h : c.isDigit = true) : c ≠ '-' := by
  intro hc
  rw [hc] at h
  exact absurd h (by decide)

theorem parseNumber_cons_minus (r : List Char) :
    parseNumber ('-' :: r) = (parseNumberCore r).map (fun p => (-p.1, p.2)) := rfl

theorem parseNumber_not_minus {c : Char} (r : List Char) (h : c ≠ '-') :
    parseNumber (c :: r) = parseNumberCore (c :: r) := by
  rw [parseNumber, if_neg (by simp only [List.head?_cons, Option.some_inj]; exact h)]

theorem parseNumber_encode (n : Int) (rest : List Char)
    (hr : ∀ c, rest.head? = some c → c.isDigit = false) :
    parseNumber (encodeInt n ++ rest) = some (n, rest) := by
  by_cases hn : n < 0
  · rw [encodeInt, if_pos hn, List.cons_append]
    rw [parseNumber_cons_minus]
    rw [parseNumberCore_encode (-n).toNat rest hr]
    have hval : (((-n).toNat : Nat) : Int) = -n := Int.toNat_of_nonneg (by omega)
    simp [hval]
  · rw [encodeInt, if_neg hn]
    have hne : encodeNat n.toNat ≠ [] := encodeNatAux_ne_nil (n.toNat + 1) n.toNat (by omega)
    obtain ⟨x, t, haux⟩ : ∃ x t, encodeNat n.toNat = x :: t := by
      cases h' : encodeNat n.toNat with
      | nil => exact absurd h' hne
      | cons a b => exact ⟨a, b, rfl⟩
    have hx : x.isDigit = true := by
      refine encodeNatAux_digits (n.toNat + 1) n.toNat (by omega) x ?_
      rw [show encodeNatAux (n.toNat + 1) n.toNat = encodeNat n.toNat from rfl, haux]
      exact List.mem_cons_self _ _
    have hmu : parseNumber (encodeNat n.toNat ++ rest)
        = parseNumberCore (encodeNat n.toNat ++ rest) := by
      rw [haux, List.cons_append]
      exact parseNumber_not_minus _ (isDigit_ne_minus hx)
    rw [hmu, parseNumberCore_encode n.toNat rest hr, Int.toNat_of_nonneg (by omega)]


theorem hexDigitChar_hex : ∀ m < 16, isHexDigitCh (hexDigitChar m) = true := by decide

theorem hexVal_hexDigitChar : ∀ m < 16, hexVal (hexDigitChar m) = m := by decide

theorem parseStringRest_quote (r : List Char) : parseStringRest ('"' :: r) = some ([], r) := by
  rw [parseStringRest.eq_def]
  rfl

theorem parseStringRest_escq (r : List Char) :
    parseStringRest ('\\' :: '"' :: r) = (parseStringRest r).map (fun p => ('"' :: p.1, p.2)) := by
  rw [parseStringRest.eq_def]
  rfl

theorem parseStringRest_escb (r : List Char) :
    parseStringRest ('\\' :: '\\' :: r) = (parseStringRest r).map (fun p => ('\\' :: p.1, p.2)) := by
  rw [parseStringRest.eq_def]
  rfl

theorem parseStringRest_u00 (x y : Char) (r : List Char)
    (hx : isHexDigitCh x = true) (hy : isHexDigitCh y = true) :
    parseStringRest ('\\' :: 'u' :: '0' :: '0' :: x :: y :: r)
      = (parseStringRest r).map
          (fun p => (Char.ofNat (((hexVal '0' * 16 + hexVal '0') * 16 + hexVal x) * 16 + hexVal y) :: p.1, p.2)) := by
  rw [parseStringRest.eq_def]
  simp only []
  rw [show isHexDigitCh '0' = true from rfl, hx, hy]
  simp

theorem parseStringRest_raw (c : Char) (r : List Char)
    (h1 : c ≠ '"') (h2 : c ≠ '\\') (h3 : 32 ≤ c.toNat) :
    parseStringRest (c :: r) = (parseStringRest r).map (fun p => (c :: p.1, p.2)) := by
  rw [parseStringRest.eq_def]
  simp only []
  rw [if_neg h1, if_neg h2, if_pos h3]


theorem parseStringRest_escB (r : List Char) :
    parseStringRest ('\\' :: 'b' :: r)
      = (parseStringRest r).map (fun p => (Char.ofNat 8 :: p.1, p.2)) := by
  rw [parseStringRest.eq_def]
  rfl

theorem parseStringRest_escT (r : List Char) :
    parseStringRest ('\\' :: 't' :: r)
      = (parseStringRest r).map (fun p => ('\t' :: p.1, p.2)) := by
  rw [parseStringRest.eq_def]
  rfl

theorem parseStringRest_escN (r : List Char) :
    parseStringRest ('\\' :: 'n' :: r)
      = (parseStringRest r).map (fun p => ('\n' :: p.1, p.2)) := by
  rw [parseStringRest.eq_def]
  rfl

theorem parseStringRest_escF (r : List Char) :
    parseStringRest ('\\' :: 'f' :: r)
      = (parseStringRest r).map (fun p => (Char.ofNat 12 :: p.1, p.2)) := by
  rw [parseStringRest.eq_def]
  rfl

theorem parseStringRest_escR (r : List Char) :
    parseStringRest ('\\' :: 'r' :: r)
      = (parseStringRest r).map (fun p => ('\r' :: p.1, p.2)) := by
  rw [parseStringRest.eq_def]
  rfl

theorem parseStringRest_encode (s : List Char) :
    ∀ rest, parseStringRest (encodeStringBody s ++ ('"' :: rest)) = some (s, rest) := by
  induction s with
  | nil =>
    intro rest
    rw [encodeStringBody, List.nil_append, parseStringRest_quote]
  | cons c t ih =>
    intro rest
    rw [encodeStringBody, List.append_assoc]
    by_cases h1 : c = '"'
    · subst h1
      rw [show escapeChar '"' = ['\\', '"'] from rfl]
      rw [show (['\\', '"'] : List Char) ++ (encodeStringBody t ++ '"' :: rest)
            = '\\' :: '"' :: (encodeStringBody t ++ '"' :: rest) from rfl]
      rw [parseStringRest_escq, ih rest]
      rfl
    · by_cases h2 : c = '\\'
      · subst h2
        rw [show escapeChar '\\' = ['\\', '\\'] from rfl]
        rw [show (['\\', '\\'] : List Char) ++ (encodeStringBody t ++ '"' :: rest)
              = '\\' :: '\\' :: (encodeStringBody t ++ '"' :: rest) from rfl]
        rw [parseStringRest_escb, ih rest]
        rfl
      · by_cases h3 : c = Char.ofNat 8
        · subst h3
          rw [show escapeChar (Char.ofNat 8) = ['\\', 'b'] from rfl]
          rw [show (['\\', 'b'] : List Char) ++ (encodeStringBody t ++ '"' :: rest)
                = '\\' :: 'b' :: (encodeStringBody t ++ '"' :: rest) from rfl]
          rw [parseStringRest_escB, ih rest]
          rfl
        · by_cases h4 : c = '\t'
          · subst h4
            rw [show escapeChar '\t' = ['\\', 't'] from rfl]
            rw [show (['\\', 't'] : List Char) ++ (encodeStringBody t ++ '"' :: rest)
                  = '\\' :: 't' :: (encodeStringBody t ++ '"' :: rest) from rfl]
            rw [parseStringRest_escT, ih rest]
            rfl
          · by_cases h5 : c = '\n'
            · subst h5
              rw [show escapeChar '\n' = ['\\', 'n'] from rfl]
              rw [show (['\\', 'n'] : List Char) ++ (encodeStringBody t ++ '"' :: rest)
                    = '\\' :: 'n' :: (encodeStringBody t ++ '"' :: rest) from rfl]
              rw [parseStringRest_escN, ih rest]
              rfl
            · by_cases h6 : c = Char.ofNat 12
              · subst h6
                rw [show escapeChar (Char.ofNat 12) = ['\\', 'f'] from rfl]
                rw [show (['\\', 'f'] : List Char) ++ (encodeStringBody t ++ '"' :: rest)
                      = '\\' :: 'f' :: (encodeStringBody t ++ '"' :: rest) from rfl]
                rw [parseStringRest_escF, ih rest]
                rfl
              · by_cases h7 : c = '\r'
                · subst h7
                  rw [show escapeChar '\r' = ['\\', 'r'] from rfl]
                  rw [show (['\\', 'r'] : List Char) ++ (encodeStringBody t ++ '"' :: rest)
                        = '\\' :: 'r' :: (encodeStringBody t ++ '"' :: rest) from rfl]
                  rw [parseStringRest_escR, ih rest]
                  rfl
                · by_cases h8 : c.toNat < 32
                  · rw [escapeChar, if_neg h1, if_neg h2, if_neg h3, if_neg h4, if_neg h5,
                        if_neg h6, if_neg h7, if_pos h8]
                    rw [show (['\\', 'u', '0', '0', hexDigitChar (c.toNat / 16),
                          hexDigitChar (c.toNat % 16)] : List Char)
                          ++ (encodeStringBody t ++ '"' :: rest)
                        = '\\' :: 'u' :: '0' :: '0' :: hexDigitChar (c.toNat / 16)
                          :: hexDigitChar (c.toNat % 16)
                          :: (encodeStringBody t ++ '"' :: rest) from rfl]
                    rw [parseStringRest_u00 _ _ _
                          (hexDigitChar_hex (c.toNat / 16) (by omega))
                          (hexDigitChar_hex (c.toNat % 16) (by omega))]
                    rw [ih rest]
                    rw [hexVal_hexDigitChar (c.toNat / 16) (by omega),
                        hexVal_hexDigitChar (c.toNat % 16) (by omega)]
                    rw [show hexVal '0' = 0 from rfl]
                    rw [show ((0 * 16 + 0) * 16 + c.toNat / 16) * 16 + c.toNat % 16
                          = c.toNat by omega]
                    rw [Char.ofNat_toNat]
                    rfl
                  · rw [escapeChar, if_neg h1, if_neg h2, if_neg h3, if_neg h4, if_neg h5,
                        if_neg h6, if_neg h7, if_neg h8]
                    rw [show ([c] : List Char) ++ (encodeStringBody t ++ '"' :: rest)
                          = c :: (encodeStringBody t ++ '"' :: rest) from rfl]
                    rw [parseStringRest_raw c _ h1 h2 (by omega)]
                    rw [ih rest]
                    rfl


theorem digit_not_special {c : Char} (h : c.isDigit = true) :
    isJsonWs c = false ∧ c ≠ ']' ∧ c ≠ '}' ∧ c ≠ 'n' ∧ c ≠ 't' ∧ c ≠ 'f'
      ∧ c ≠ '"' ∧ c ≠ '[' ∧ c ≠ '{' := by
  have hsp : c ≠ ' ' := fun e => by subst e; exact absurd h (by decide)
  have htb : c ≠ '\t' := fun e => by subst e; exact absurd h (by decide)
  have hnl : c ≠ '\n' := fun e => by subst e; exact absurd h (by decide)
  have hcr : c ≠ '\r' := fun e => by subst e; exact absurd h (by decide)
  refine ⟨by simp [isJsonWs, hsp, htb, hnl, hcr], ?_, ?_, ?_, ?_, ?_, ?_, ?_, ?_⟩
  all_goals exact fun e => by subst e; exact absurd h (by decide)

theorem jsonEncode_cons (v : Json) :
    ∃ c r, jsonEncode v = c :: r ∧ isJsonWs c = false ∧ c ≠ ']' ∧ c ≠ '}' := by
  cases v with
  | null => exact ⟨'n', ['u', 'l', 'l'], by simp [jsonEncode, litNull, litTrue, litFalse, litNull, litTrue, litFalse], by decide, by decide, by decide⟩
  | bool b =>
    cases b with
    | true => exact ⟨'t', ['r', 'u', 'e'], by simp [jsonEncode, litNull, litTrue, litFalse, litNull, litTrue, litFalse], by decide, by decide, by decide⟩
    | false => exact ⟨'f', ['a', 'l', 's', 'e'], by simp [jsonEncode, litNull, litTrue, litFalse, litNull, litTrue, litFalse], by decide, by decide, by decide⟩
  | num n =>
    by_cases hn : n < 0
    · refine ⟨'-', encodeNat (-n).toNat, ?_, by decide, by decide, by decide⟩
      simp [jsonEncode, litNull, litTrue, litFalse, encodeInt, hn]
    · have hne : encodeNat n.toNat ≠ [] := encodeNatAux_ne_nil (n.toNat + 1) n.toNat (by omega)
      obtain ⟨x, t, haux⟩ : ∃ x t, encodeNat n.toNat = x :: t := by
        cases h' : encodeNat n.toNat with
        | nil => exact absurd h' hne
        | cons a b => exact ⟨a, b, rfl⟩
      have hx : x.isDigit = true := by
        refine encodeNatAux_digits (n.toNat + 1) n.toNat (by omega) x ?_
        rw [show encodeNatAux (n.toNat + 1) n.toNat = encodeNat n.toNat from rfl, haux]
        exact List.mem_cons_self _ _
      obtain ⟨hws, hrb, hcb, -⟩ := digit_not_special hx
      refine ⟨x, t, ?_, hws, hrb, hcb⟩
      rw [show jsonEncode (Json.num n) = encodeInt n by simp [jsonEncode, litNull, litTrue, litFalse, litNull, litTrue, litFalse]]
      rw [encodeInt, if_neg hn, haux]
  | str s => exact ⟨'"', encodeStringBody s ++ ['"'], by simp [jsonEncode, litNull, litTrue, litFalse, encodeStringLit], by decide, by decide, by decide⟩
  | arr xs =>
    exact ⟨'[', encodeElems xs ++ [']'], by simp [jsonEncode, litNull, litTrue, litFalse, litNull, litTrue, litFalse], by decide, by decide, by decide⟩
  | obj kvs =>
    exact ⟨'{', encodeMembers kvs ++ ['}'], by simp [jsonEncode, litNull, litTrue, litFalse, litNull, litTrue, litFalse], by decide, by decide, by decide⟩

theorem skipWs_encode_append (v : Json) (rest : List Char) :
    skipWs (jsonEncode v ++ rest) = jsonEncode v ++ rest := by
  obtain ⟨c, r, hc, hws, -, -⟩ := jsonEncode_cons v
  rw [hc, List.cons_append, skipWs_cons_of _ hws]

theorem needFuel_pos (v : Json) : 1 ≤ needFuel v := by
  cases v with
  | null => simp [needFuel]
  | bool b => simp [needFuel]
  | num n => simp [needFuel]
  | str s => simp [needFuel]
  | arr xs =>
    cases xs with
    | nil => simp [needFuel]
    | cons x t => simp [needFuel]
  | obj kvs =>
    cases kvs with
    | nil => simp [needFuel]
    | cons kv t =>
      obtain ⟨k, x⟩ := kv
      simp [needFuel]

theorem needFuel_le : (v : Json) → needFuel v ≤ (jsonEncode v).length + 1
  | .null => by simp [needFuel, jsonEncode, litNull, litTrue, litFalse, litNull, litTrue, litFalse]
  | .bool true => by simp [needFuel, jsonEncode, litNull, litTrue, litFalse, litNull, litTrue, litFalse]
  | .bool false => by simp [needFuel, jsonEncode, litNull, litTrue, litFalse, litNull, litTrue, litFalse]
  | .num n => by simp [needFuel]
  | .str s => by simp [needFuel]
  | .arr [] => by simp [needFuel, jsonEncode, litNull, litTrue, litFalse, litNull, litTrue, litFalse]
  | .arr [x] => by
    have h1 := needFuel_le x
    have hlen : (jsonEncode (Json.arr [x])).length = (jsonEncode x).length + 2 := by
      simp [jsonEncode, litNull, litTrue, litFalse, encodeElems]
    have hmax : max (needFuel x) (needFuel (Json.arr [])) ≤ (jsonEncode x).length + 1 := by
      refine max_le (by omega) ?_
      simp [needFuel]
    rw [show needFuel (Json.arr [x]) = 1 + max (needFuel x) (needFuel (Json.arr [])) by
      simp [needFuel]]
    omega
  | .arr (x :: y :: ys) => by
    have h1 := needFuel_le x
    have h2 := needFuel_le (.arr (y :: ys))
    have hlen : (jsonEncode (Json.arr (x :: y :: ys))).length
        = (jsonEncode x).length + (encodeElems (y :: ys)).length + 3 := by
      simp [jsonEncode, litNull, litTrue, litFalse, encodeElems]
      omega
    have hlen2 : (jsonEncode (Json.arr (y :: ys))).length = (encodeElems (y :: ys)).length + 2 := by
      simp [jsonEncode, litNull, litTrue, litFalse, litNull, litTrue, litFalse]
    have hmax : max (needFuel x) (needFuel (Json.arr (y :: ys)))
        ≤ (jsonEncode x).length + (encodeElems (y :: ys)).length + 3 :=
      max_le (by omega) (by omega)
    rw [show needFuel (Json.arr (x :: y :: ys))
        = 1 + max (needFuel x) (needFuel (Json.arr (y :: ys))) by simp [needFuel]]
    omega
  | .obj [] => by simp [needFuel, jsonEncode, litNull, litTrue, litFalse, litNull, litTrue, litFalse]
  | .obj [(k, x)] => by
    have h1 := needFuel_le x
    have hlen : (jsonEncode (Json.obj [(k, x)])).length
        = (encodeStringLit k).length + (jsonEncode x).length + 3 := by
      simp [jsonEncode, litNull, litTrue, litFalse, encodeMembers]
      omega
    have hmax : max (needFuel x) (needFuel (Json.obj [])) ≤ (jsonEncode x).length + 1 := by
      refine max_le (by omega) ?_
      simp [needFuel]
    rw [show needFuel (Json.obj [(k, x)]) = 1 + max (needFuel x) (needFuel (Json.obj [])) by
      simp [needFuel]]
    omega
  | .obj ((k, x) :: m :: kvs) => by
    have h1 := needFuel_le x
    have h2 := needFuel_le (.obj (m :: kvs))
    have hlen : (jsonEncode (Json.obj ((k, x) :: m :: kvs))).length
        = (encodeStringLit k).length + (jsonEncode x).length
          + (encodeMembers (m :: kvs)).length + 4 := by
      simp [jsonEncode, litNull, litTrue, litFalse, encodeMembers]
      omega
    have hlen2 : (jsonEncode (Json.obj (m :: kvs))).length
        = (encodeMembers (m :: kvs)).length + 2 := by
      simp [jsonEncode, litNull, litTrue, litFalse, litNull, litTrue, litFalse]
    have hmax : max (needFuel x) (needFuel (Json.obj (m :: kvs)))
        ≤ (jsonEncode x).length + (encodeMembers (m :: kvs)).length + 3 :=
      max_le (by omega) (by omega)
    rw [show needFuel (Json.obj ((k, x) :: m :: kvs))
        = 1 + max (needFuel x) (needFuel (Json.obj (m :: kvs))) by simp [needFuel]]
    omega
termination_by v => sizeOf v


theorem encodeElems_cons (y : Json) (ys : List Json) :
    ∃ tailp, encodeElems (y :: ys) = jsonEncode y ++ tailp := by
  cases ys with
  | nil => exact ⟨[], by simp [encodeElems]⟩
  | cons z zs => exact ⟨',' :: encodeElems (z :: zs), by simp [encodeElems]⟩

theorem encodeMembers_cons (m : List Char × Json) (kvs : List (List Char × Json)) :
    ∃ t, encodeMembers (m :: kvs) = '"' :: t := by
  obtain ⟨km, vm⟩ := m
  cases kvs with
  | nil =>
    refine ⟨encodeStringBody km ++ ['"'] ++ (':' :: jsonEncode vm), ?_⟩
    simp [encodeMembers, encodeStringLit]
  | cons m2 kvs2 =>
    refine ⟨encodeStringBody km ++ ['"']
      ++ (':' :: jsonEncode vm ++ ',' :: encodeMembers (m2 :: kvs2)), ?_⟩
    simp [encodeMembers, encodeStringLit]

theorem parseArrBody_single (pv : List Char → Option (Json × List Char)) (x : Json)
    (rest : List Char)
    (hx : pv (jsonEncode x ++ (']' :: rest)) = some (x, ']' :: rest)) :
    parseArrBody pv (jsonEncode x ++ (']' :: rest)) = some (.arr [x], rest) := by
  obtain ⟨c, r, hc, hws, hrb, hcb⟩ := jsonEncode_cons x
  unfold parseArrBody
  rw [skipWs_encode_append]
  rw [if_neg (by rw [hc, List.cons_append]; simp [hrb])]
  rw [hx]
  simp only []
  rw [skipWs_cons_of _ (by decide)]
  rw [if_neg (by simp)]
  rw [if_pos (show ((']' :: rest : List Char)).head? = some ']' from rfl)]
  rfl

theorem parseArrBody_more (pv : List Char → Option (Json × List Char)) (x y : Json)
    (ys : List Json) (rest : List Char)
    (hx : pv (jsonEncode x ++ (',' :: (encodeElems (y :: ys) ++ ']' :: rest)))
        = some (x, ',' :: (encodeElems (y :: ys) ++ ']' :: rest)))
    (hcont : pv ('[' :: (encodeElems (y :: ys) ++ ']' :: rest)) = some (.arr (y :: ys), rest)) :
    parseArrBody pv (jsonEncode x ++ (',' :: (encodeElems (y :: ys) ++ ']' :: rest)))
      = some (.arr (x :: y :: ys), rest) := by
  obtain ⟨c, r, hc, hws, hrb, hcb⟩ := jsonEncode_cons x
  obtain ⟨tailp, htp⟩ := encodeElems_cons y ys
  obtain ⟨cy, ry, hcy, hwsy, hrby, hcby⟩ := jsonEncode_cons y
  unfold parseArrBody
  rw [skipWs_encode_append]
  rw [if_neg (by rw [hc, List.cons_append]; simp [hrb])]
  rw [hx]
  simp only []
  rw [skipWs_cons_of _ (by decide)]
  rw [if_pos (show ((',' :: (encodeElems (y :: ys) ++ ']' :: rest) : List Char)).head?
        = some ',' from rfl)]
  rw [show ((',' :: (encodeElems (y :: ys) ++ ']' :: rest) : List Char)).tail
        = encodeElems (y :: ys) ++ ']' :: rest from rfl]
  have hsk : skipWs (encodeElems (y :: ys) ++ ']' :: rest)
      = encodeElems (y :: ys) ++ ']' :: rest := by
    rw [htp, List.append_assoc]
    exact skipWs_encode_append y _
  rw [if_neg (by rw [hsk, htp, List.append_assoc, hcy, List.cons_append]; simp [hrby])]
  rw [hcont]


theorem parseObjBody_single (pv : List Char → Option (Json × List Char))
    (k : List Char) (x : Json) (rest : List Char)
    (hx : pv (jsonEncode x ++ ('}' :: rest)) = some (x, '}' :: rest)) :
    parseObjBody pv (encodeStringLit k ++ (':' :: (jsonEncode x ++ ('}' :: rest))))
      = some (.obj [(k, x)], rest) := by
  have hr : encodeStringLit k ++ (':' :: (jsonEncode x ++ ('}' :: rest)))
      = '"' :: (encodeStringBody k ++ ('"' :: (':' :: (jsonEncode x ++ ('}' :: rest))))) := by
    simp [encodeStringLit]
  unfold parseObjBody
  rw [hr, skipWs_cons_of _ (by decide)]
  simp only [List.head?_cons, List.tail_cons]
  rw [if_neg (by simp), if_pos trivial]
  rw [parseStringRest_encode k (':' :: (jsonEncode x ++ ('}' :: rest)))]
  simp only []
  rw [skipWs_cons_of _ (by decide)]
  simp only [List.head?_cons, List.tail_cons]
  rw [if_pos trivial]
  rw [hx]
  simp only []
  rw [skipWs_cons_of _ (by decide)]
  simp only [List.head?_cons, List.tail_cons]
  rw [if_neg (by simp), if_pos trivial]

theorem parseObjBody_more (pv : List Char → Option (Json × List Char))
    (k : List Char) (x : Json) (m : List Char × Json) (kvs : List (List Char × Json))
    (rest : List Char)
    (hx : pv (jsonEncode x ++ (',' :: (encodeMembers (m :: kvs) ++ '}' :: rest)))
        = some (x, ',' :: (encodeMembers (m :: kvs) ++ '}' :: rest)))
    (hcont : pv ('{' :: (encodeMembers (m :: kvs) ++ '}' :: rest))
        = some (.obj (m :: kvs), rest)) :
    parseObjBody pv
        (encodeStringLit k ++ (':' :: (jsonEncode x ++ (',' :: (encodeMembers (m :: kvs) ++ '}' :: rest)))))
      = some (.obj ((k, x) :: m :: kvs), rest) := by
  obtain ⟨tm, htm⟩ := encodeMembers_cons m kvs
  have hr : encodeStringLit k
        ++ (':' :: (jsonEncode x ++ (',' :: (encodeMembers (m :: kvs) ++ '}' :: rest))))
      = '"' :: (encodeStringBody k
          ++ ('"' :: (':' :: (jsonEncode x ++ (',' :: (encodeMembers (m :: kvs) ++ '}' :: rest)))))) := by
    simp [encodeStringLit]
  unfold parseObjBody
  rw [hr, skipWs_cons_of _ (by decide)]
  simp only [List.head?_cons, List.tail_cons]
  rw [if_neg (by simp), if_pos trivial]
  rw [parseStringRest_encode k
      (':' :: (jsonEncode x ++ (',' :: (encodeMembers (m :: kvs) ++ '}' :: rest))))]
  simp only []
  rw [skipWs_cons_of _ (by decide)]
  simp only [List.head?_cons, List.tail_cons]
  rw [if_pos trivial]
  rw [hx]
  simp only []
  rw [skipWs_cons_of _ (by decide)]
  simp only [List.head?_cons, List.tail_cons]
  rw [if_pos trivial]
  have hsk : skipWs (encodeMembers (m :: kvs) ++ '}' :: rest)
      = encodeMembers (m :: kvs) ++ '}' :: rest := by
    rw [htm, List.cons_append]
    exact skipWs_cons_of _ (by decide)
  rw [if_pos (by rw [hsk, htm, List.cons_append]; rfl)]
  rw [hcont]


theorem parseVCore_lbracket (pv : List Char → Option (Json × List Char)) (r : List Char) :
    parseVCore pv ('[' :: r) = parseArrBody pv r := rfl

theorem parseVCore_lbrace (pv : List Char → Option (Json × List Char)) (r : List Char) :
    parseVCore pv ('{' :: r) = parseObjBody pv r := rfl

theorem parseVCore_strlit (pv : List Char → Option (Json × List Char)) (r : List Char) :
    parseVCore pv ('"' :: r) = (parseStringRest r).map (fun p => (Json.str p.1, p.2)) := rfl

theorem parseVCore_num (pv : List Char → Option (Json × List Char)) (c : Char) (r : List Char)
    (h1 : c ≠ 'n') (h2 : c ≠ 't') (h3 : c ≠ 'f') (h4 : c ≠ '"') (h5 : c ≠ '[') (h6 : c ≠ '{') :
    parseVCore pv (c :: r) = (parseNumber (c :: r)).map (fun p => (Json.num p.1, p.2)) := by
  rw [parseVCore.eq_def]
  simp only []
  rw [if_neg h1, if_neg h2, if_neg h3, if_neg h4, if_neg h5, if_neg h6]

theorem encodeInt_cons (n : Int) :
    ∃ c r, encodeInt n = c :: r ∧ (c = '-' ∨ c.isDigit = true) := by
  by_cases hn : n < 0
  · exact ⟨'-', encodeNat (-n).toNat, by rw [encodeInt, if_pos hn], Or.inl rfl⟩
  · have hne : encodeNat n.toNat ≠ [] := encodeNatAux_ne_nil (n.toNat + 1) n.toNat (by omega)
    obtain ⟨x, t, haux⟩ : ∃ x t, encodeNat n.toNat = x :: t := by
      cases h' : encodeNat n.toNat with
      | nil => exact absurd h' hne
      | cons a b => exact ⟨a, b, rfl⟩
    have hx : x.isDigit = true := by
      refine encodeNatAux_digits (n.toNat + 1) n.toNat (by omega) x ?_
      rw [show encodeNatAux (n.toNat + 1) n.toNat = encodeNat n.toNat from rfl, haux]
      exact List.mem_cons_self _ _
    exact ⟨x, t, by rw [encodeInt, if_neg hn, haux], Or.inr hx⟩

theorem head_restOk (d : Char) (hd : d.isDigit = false) (rest : List Char) :
    ∀ c, ((d :: rest).head?) = some c → c.isDigit = false := by
  intro c hc
  simp only [List.head?_cons, Option.some_inj] at hc
  rw [← hc]
  exact hd

theorem parseArrBody_nil (pv : List Char → Option (Json × List Char)) (rest : List Char) :
    parseArrBody pv (']' :: rest) = some (.arr [], rest) := by
  unfold parseArrBody
  rw [skipWs_cons_of _ (by decide)]
  simp only [List.head?_cons, List.tail_cons]
  rw [if_pos trivial]

theorem parseObjBody_nil (pv : List Char → Option (Json × List Char)) (rest : List Char) :
    parseObjBody pv ('}' :: rest) = some (.obj [], rest) := by
  unfold parseObjBody
  rw [skipWs_cons_of _ (by decide)]
  simp only [List.head?_cons, List.tail_cons]
  rw [if_pos trivial]

/-- Round trip of the value grammar: with enough fuel, parsing the clean
encoding of any value followed by a non-digit-headed remainder returns
exactly that value and the remainder. -/
theorem parseV_encode :
    ∀ fuel v rest, needFuel v ≤ fuel →
      (∀ c, rest.head? = some c → c.isDigit = false) →
      parseV fuel (jsonEncode v ++ rest) = some (v, rest) := by
  intro fuel
  induction fuel with
  | zero =>
    intro v rest h _
    exact absurd h (by have := needFuel_pos v; omega)
  | succ f ih =>
    intro v rest h hrest
    rw [parseV, skipWs_encode_append]
    cases v with
    | null =>
      rw [show jsonEncode Json.null = ['n', 'u', 'l', 'l'] from by simp [jsonEncode, litNull, litTrue, litFalse, litNull, litTrue, litFalse]]
      rfl
    | bool b =>
      cases b with
      | true =>
        rw [show jsonEncode (Json.bool true) = ['t', 'r', 'u', 'e'] from by simp [jsonEncode, litNull, litTrue, litFalse, litNull, litTrue, litFalse]]
        rfl
      | false =>
        rw [show jsonEncode (Json.bool false) = ['f', 'a', 'l', 's', 'e'] from by simp [jsonEncode, litNull, litTrue, litFalse, litNull, litTrue, litFalse]]
        rfl
    | num n =>
      rw [show jsonEncode (Json.num n) = encodeInt n from by simp [jsonEncode, litNull, litTrue, litFalse, litNull, litTrue, litFalse]]
      obtain ⟨c0, r0, hc0, hdisc⟩ := encodeInt_cons n
      have hfacts : c0 ≠ 'n' ∧ c0 ≠ 't' ∧ c0 ≠ 'f' ∧ c0 ≠ '"' ∧ c0 ≠ '[' ∧ c0 ≠ '{' := by
        rcases hdisc with hm | hd
        · subst hm
          exact ⟨by decide, by decide, by decide, by decide, by decide, by decide⟩
        · obtain ⟨-, -, -, a, b, c, d, e, g⟩ := digit_not_special hd
          exact ⟨a, b, c, d, e, g⟩
      rw [hc0, List.cons_append,
          parseVCore_num _ _ _ hfacts.1 hfacts.2.1 hfacts.2.2.1 hfacts.2.2.2.1
            hfacts.2.2.2.2.1 hfacts.2.2.2.2.2]
      have hp := parseNumber_encode n rest hrest
      rw [hc0, List.cons_append] at hp
      rw [hp]
      rfl
    | str s =>
      rw [show jsonEncode (Json.str s) = '"' :: (encodeStringBody s ++ ['"']) from by
        simp [jsonEncode, litNull, litTrue, litFalse, encodeStringLit]]
      rw [List.cons_append, parseVCore_strlit]
      rw [List.append_assoc]
      rw [show (['"'] : List Char) ++ rest = '"' :: rest from rfl]
      rw [parseStringRest_encode s rest]
      rfl
    | arr xs =>
      cases xs with
      | nil =>
        rw [show jsonEncode (Json.arr []) = ['[', ']'] from by simp [jsonEncode, litNull, litTrue, litFalse, encodeElems]]
        rw [show (['[', ']'] : List Char) ++ rest = '[' :: ']' :: rest from rfl]
        rw [parseVCore_lbracket]
        exact parseArrBody_nil _ rest
      | cons x xs2 =>
        have hfx : needFuel x ≤ f := by
          rw [show needFuel (Json.arr (x :: xs2))
              = 1 + max (needFuel x) (needFuel (Json.arr xs2)) from by simp [needFuel]] at h
          have := le_max_left (needFuel x) (needFuel (Json.arr xs2))
          omega
        have hfxs : needFuel (Json.arr xs2) ≤ f := by
          rw [show needFuel (Json.arr (x :: xs2))
              = 1 + max (needFuel x) (needFuel (Json.arr xs2)) from by simp [needFuel]] at h
          have := le_max_right (needFuel x) (needFuel (Json.arr xs2))
          omega
        cases xs2 with
        | nil =>
          have henc : jsonEncode (Json.arr [x]) ++ rest
              = '[' :: (jsonEncode x ++ (']' :: rest)) := by
            rw [show jsonEncode (Json.arr [x]) = '[' :: encodeElems [x] ++ [']'] from by
              simp [jsonEncode, litNull, litTrue, litFalse, litNull, litTrue, litFalse]]
            rw [show encodeElems [x] = jsonEncode x from by simp [encodeElems]]
            simp
          rw [henc, parseVCore_lbracket]
          exact parseArrBody_single _ x rest
            (ih x (']' :: rest) hfx (head_restOk ']' (by decide) rest))
        | cons y ys =>
          have henc : jsonEncode (Json.arr (x :: y :: ys)) ++ rest
              = '[' :: (jsonEncode x ++ (',' :: (encodeElems (y :: ys) ++ ']' :: rest))) := by
            rw [show jsonEncode (Json.arr (x :: y :: ys))
                = '[' :: encodeElems (x :: y :: ys) ++ [']'] from by simp [jsonEncode, litNull, litTrue, litFalse, litNull, litTrue, litFalse]]
            rw [show encodeElems (x :: y :: ys)
                = jsonEncode x ++ ',' :: encodeElems (y :: ys) from by simp [encodeElems]]
            simp
          rw [henc, parseVCore_lbracket]
          refine parseArrBody_more _ x y ys rest ?_ ?_
          · exact ih x _ hfx (head_restOk ',' (by decide) _)
          · have hE : ('[' : Char) :: (encodeElems (y :: ys) ++ ']' :: rest)
                = jsonEncode (Json.arr (y :: ys)) ++ rest := by
              rw [show jsonEncode (Json.arr (y :: ys))
                  = '[' :: encodeElems (y :: ys) ++ [']'] from by simp [jsonEncode, litNull, litTrue, litFalse, litNull, litTrue, litFalse]]
              simp
            rw [hE]
            exact ih (Json.arr (y :: ys)) rest hfxs hrest
    | obj kvs =>
      cases kvs with
      | nil =>
        rw [show jsonEncode (Json.obj []) = ['{', '}'] from by simp [jsonEncode, litNull, litTrue, litFalse, encodeMembers]]
        rw [show (['{', '}'] : List Char) ++ rest = '{' :: '}' :: rest from rfl]
        rw [parseVCore_lbrace]
        exact parseObjBody_nil _ rest
      | cons kv kvs2 =>
        obtain ⟨k, x⟩ := kv
        have hfx : needFuel x ≤ f := by
          rw [show needFuel (Json.obj ((k, x) :: kvs2))
              = 1 + max (needFuel x) (needFuel (Json.obj kvs2)) from by simp [needFuel]] at h
          have := le_max_left (needFuel x) (needFuel (Json.obj kvs2))
          omega
        have hfxs : needFuel (Json.obj kvs2) ≤ f := by
          rw [show needFuel (Json.obj ((k, x) :: kvs2))
              = 1 + max (needFuel x) (needFuel (Json.obj kvs2)) from by simp [needFuel]] at h
          have := le_max_right (needFuel x) (needFuel (Json.obj kvs2))
          omega
        cases kvs2 with
        | nil =>
          have henc : jsonEncode (Json.obj [(k, x)]) ++ rest
              = '{' :: (encodeStringLit k ++ (':' :: (jsonEncode x ++ ('}' :: rest)))) := by
            rw [show jsonEncode (Json.obj [(k, x)])
                = '{' :: encodeMembers [(k, x)] ++ ['}'] from by simp [jsonEncode, litNull, litTrue, litFalse, litNull, litTrue, litFalse]]
            rw [show encodeMembers [(k, x)]
                = encodeStringLit k ++ ':' :: jsonEncode x from by simp [encodeMembers]]
            simp
          rw [henc, parseVCore_lbrace]
          exact parseObjBody_single _ k x rest
            (ih x ('}' :: rest) hfx (head_restOk '}' (by decide) rest))
        | cons m kvs3 =>
          have henc : jsonEncode (Json.obj ((k, x) :: m :: kvs3)) ++ rest
              = '{' :: (encodeStringLit k
                  ++ (':' :: (jsonEncode x ++ (',' :: (encodeMembers (m :: kvs3) ++ '}' :: rest))))) := by
            rw [show jsonEncode (Json.obj ((k, x) :: m :: kvs3))
                = '{' :: encodeMembers ((k, x) :: m :: kvs3) ++ ['}'] from by simp [jsonEncode, litNull, litTrue, litFalse, litNull, litTrue, litFalse]]
            rw [show encodeMembers ((k, x) :: m :: kvs3)
                = encodeStringLit k ++ ':' :: jsonEncode x ++ ',' :: encodeMembers (m :: kvs3)
                from by simp [encodeMembers]]
            simp
          rw [henc, parseVCore_lbrace]
          refine parseObjBody_more _ k x m kvs3 rest ?_ ?_
          · exact ih x _ hfx (head_restOk ',' (by decide) _)
          · have hE : ('{' : Char) :: (encodeMembers (m :: kvs3) ++ '}' :: rest)
                = jsonEncode (Json.obj (m :: kvs3)) ++ rest := by
              rw [show jsonEncode (Json.obj (m :: kvs3))
                  = '{' :: encodeMembers (m :: kvs3) ++ ['}'] from by simp [jsonEncode, litNull, litTrue, litFalse, litNull, litTrue, litFalse]]
              simp
            rw [hE]
            exact ih (Json.obj (m :: kvs3)) rest hfxs hrest


/-- `JSON.parse` inverts `JSON.stringify` in the model. -/
theorem jsonParse_encode (v : Json) : jsonParse (jsonEncode v) = some v := by
  unfold jsonParse
  have hp := parseV_encode ((jsonEncode v).length + 1) v []
    (by have := needFuel_le v; omega) (by intro c hc; simp at hc)
  rw [List.append_nil] at hp
  rw [hp]
  rfl

/-- The normalisation stage leaves a fence-free encoded object unchanged. -/
theorem cleanText_encode_obj (kvs : List (List Char × Json))
    (hf : containsSub (jsonEncode (Json.obj kvs)) fence = false) :
    cleanText (jsonEncode (Json.obj kvs)) = jsonEncode (Json.obj kvs) := by
  have hshape : jsonEncode (Json.obj kvs) = '{' :: encodeMembers kvs ++ ['}'] := by
    simp [jsonEncode, litNull, litTrue, litFalse, litNull, litTrue, litFalse]
  have hfj : containsSub (jsonEncode (Json.obj kvs)) fenceJson = false := by
    cases hval : containsSub (jsonEncode (Json.obj kvs)) fenceJson with
    | false => rfl
    | true =>
      exfalso
      have h2 : containsSub (jsonEncode (Json.obj kvs)) fence = true :=
        containsSub_append_left fence ['j', 's', 'o', 'n'] _
          (by rw [show (fence ++ ['j', 's', 'o', 'n'] : List Char) = fenceJson from rfl]
              exact hval)
      rw [hf] at h2
      exact Bool.false_ne_true h2
  unfold cleanText
  rw [replaceAll_id fenceJson _ hfj, replaceAll_id fence _ hf]
  rw [hshape]
  exact trimChars_id '{' '}' (encodeMembers kvs) (by decide) (by decide)

/-- Claim C6 (amended): for every object (mapping) value whose clean JSON
encoding contains no markdown fence marker, parsing the encoding returns
exactly that value.  (For non-object values, and for objects whose encoding
contains a fence marker, the round trip fails — see the counterexample.) -/
theorem parse_jsonEncode_obj (v : Json) (hobj : v.isObj = true)
    (hfence : containsSub (jsonEncode v) fence = false) :
    parseModelJSON (jsonEncode v) = some v := by
  obtain ⟨kvs, rfl⟩ : ∃ kvs, v = Json.obj kvs := by
    cases v with
    | obj kvs => exact ⟨kvs, rfl⟩
    | null => exact absurd hobj (by simp [Json.isObj])
    | bool b => exact absurd hobj (by simp [Json.isObj])
    | num n => exact absurd hobj (by simp [Json.isObj])
    | str s => exact absurd hobj (by simp [Json.isObj])
    | arr xs => exact absurd hobj (by simp [Json.isObj])
  have hshape : jsonEncode (Json.obj kvs) = '{' :: encodeMembers kvs ++ ['}'] := by
    simp [jsonEncode, litNull, litTrue, litFalse, litNull, litTrue, litFalse]
  have hne : jsonEncode (Json.obj kvs) ≠ [] := by
    rw [hshape]
    simp
  have hclean := cleanText_encode_obj kvs hfence
  have hidx : indexOfChar (cleanText (jsonEncode (Json.obj kvs))) '{' = some 0 := by
    rw [hclean, hshape]
    simp [indexOfChar]
  unfold parseModelJSON parseModelJSONT
  rw [if_neg hne, hidx]
  simp only []
  rw [List.drop_zero, hclean]
  rw [jsonParse_encode (Json.obj kvs)]

/-- Witness for C6 (amended) on the concrete object `{"a":1}`. -/
theorem parse_jsonEncode_obj_check :
    parseModelJSON (jsonEncode vObjA) = some vObjA := by
  refine parse_jsonEncode_obj vObjA rfl ?_
  have henc : jsonEncode vObjA = ['{', '"', 'a', '"', ':', '1', '}'] := by
    simp [vObjA, jsonEncode, litNull, litTrue, litFalse, encodeMembers, encodeStringLit, encodeStringBody, escapeChar,
      encodeInt, encodeNat, encodeNatAux, digitChar]
  rw [henc]
  rfl

/-- Claim C6 counterexample: the round trip fails on non-object values (the
encoding of `null` contains no `{`, so the parser returns Empty), and on an
object whose string value contains a markdown fence marker (the fence
characters are stripped before parsing, changing the value). -/
theorem roundtrip_fails_cex :
    parseModelJSON (jsonEncode Json.null) = none
    ∧ parseModelJSON (jsonEncode vFence) = some (Json.obj [(['a'], Json.str [])])
    ∧ Json.obj [(['a'], Json.str [])] ≠ vFence := by
  have h1 : jsonEncode Json.null = ['n', 'u', 'l', 'l'] := by simp [jsonEncode, litNull, litTrue, litFalse, litNull, litTrue, litFalse]
  have h2 : jsonEncode vFence = ['{', '"', 'a', '"', ':', '"', btick, btick, btick, '"', '}'] := by
    simp [vFence, jsonEncode, litNull, litTrue, litFalse, encodeMembers, encodeStringLit, encodeStringBody, escapeChar]
    decide
  refine ⟨?_, ?_, ?_⟩
  · rw [h1]
    rfl
  · rw [h2]
    rfl
  · intro hcon
    simp [vFence] at hcon

end ByteAI
